import Mathlib

/-!
Verification development for the brs save-file codec (Rust sources under src/).

The definitions below are a shallow embedding of the Rust code:
machine integers (u8/u16/u32/i32) are modelled as Nat/Int with explicit
wrapping (% 4294967296, % 256, ...) where the Rust semantics wraps,
byte buffers are List Nat (each entry a byte value), fallible operations
return Except.  Out-of-range Vec indexing panics in Rust; it is modelled
with List.getD _ 0 so that position overruns remain observable.
-/

namespace Brs

/-- Bit number i of a byte buffer, LSB-first within each byte.  This is the
indexing expression of bit_reader.rs line 19 (also used for src in
bit_writer.rs line 83): buf[i >> 3] & (1 << (i & 7)) != 0.  Rust panics when
the byte index is out of range; here the buffer reads as 0 there. -/
def bitAt (buf : List Nat) (i : Nat) : Bool :=
  (buf.getD (i >>> 3) 0) &&& (1 <<< (i &&& 7)) != 0

/-- BitReader (bit_reader.rs lines 6-9): a byte buffer and a bit position. -/
structure BitReader where
  buf : List Nat
  pos : Nat
deriving Repr, DecidableEq

/-- BitReader::read_bit (bit_reader.rs lines 18-22). -/
def BitReader.read_bit (r : BitReader) : Bool × BitReader :=
  (bitAt r.buf r.pos, { r with pos := r.pos + 1 })

/-- Loop body of BitReader::read_bits (bit_reader.rs lines 26-30): for each
bit index, read a bit from the cursor and store it at position bit of dst,
clearing the destination bit first (dst[bit>>3] masked with !(1<<shift), a
u8 complement, modelled as 255 ^^^ (1 <<< shift)). -/
def BitReader.read_bits_go : Nat → Nat → List Nat → BitReader → List Nat × BitReader
  | 0, _, dst, r => (dst, r)
  | n + 1, bit, dst, r =>
    let br := r.read_bit
    let shift := bit &&& 7
    let idx := bit >>> 3
    let byte := (dst.getD idx 0 &&& (255 ^^^ (1 <<< shift))) ||| ((if br.1 then 1 else 0) <<< shift)
    BitReader.read_bits_go n (bit + 1) (dst.set idx byte) br.2

/-- BitReader::read_bits (bit_reader.rs lines 25-32): the copy loop above,
followed by the extra self.pos += len of line 31. -/
def BitReader.read_bits (r : BitReader) (dst : List Nat) (len : Nat) : List Nat × BitReader :=
  let p := BitReader.read_bits_go len 0 dst r
  (p.1, { p.2 with pos := p.2.pos + len })

/-- Loop of BitReader::read_int (bit_reader.rs lines 36-46).  The loop is a
while loop; 33 units of fuel always suffice because mask doubles from 1 and
wraps to 0 (u32) after at most 32 iterations, which ends the loop. -/
def BitReader.read_int_loop : Nat → Nat → Nat → Nat → BitReader → Nat × BitReader
  | 0, value, _, _, r => (value, r)
  | fuel + 1, value, mask, max, r =>
    if value + mask < max ∧ mask ≠ 0 then
      let br := r.read_bit
      BitReader.read_int_loop fuel (if br.1 then value ||| mask else value)
        ((mask * 2) % 4294967296) max br.2
    else (value, r)

/-- BitReader::read_int (bit_reader.rs lines 35-47). -/
def BitReader.read_int (r : BitReader) (max : Nat) : Nat × BitReader :=
  BitReader.read_int_loop 33 0 1 max r

/-- Inner 7-bit loop of BitReader::read_int_packed (bit_reader.rs lines
90-92): part |= read_bit << bit_shift for bit_shift in 0..7. -/
def BitReader.read_part_go : Nat → Nat → Nat → BitReader → Nat × BitReader
  | 0, part, _, r => (part, r)
  | n + 1, part, shift, r =>
    let br := r.read_bit
    BitReader.read_part_go n (part ||| ((if br.1 then 1 else 0) <<< shift)) (shift + 1) br.2

/-- Outer loop of BitReader::read_int_packed (bit_reader.rs lines 85-99):
at most 5 groups of a continuation bit plus 7 payload bits; the group value
is shifted by 7*i (a u32 shift, wrapping, hence % 4294967296). -/
def BitReader.read_int_packed_go : Nat → Nat → Nat → BitReader → Nat × BitReader
  | 0, value, _, r => (value, r)
  | n + 1, value, i, r =>
    let hb := r.read_bit
    let pp := BitReader.read_part_go 7 0 0 hb.2
    let value2 := value ||| ((pp.1 <<< (7 * i)) % 4294967296)
    if hb.1 then BitReader.read_int_packed_go n value2 (i + 1) pp.2 else (value2, pp.2)

/-- BitReader::read_int_packed (bit_reader.rs lines 50-100). -/
def BitReader.read_int_packed (r : BitReader) : Nat × BitReader :=
  BitReader.read_int_packed_go 5 0 0 r

/-- BitReader::eat_byte_align (bit_reader.rs lines 103-105):
pos = (pos + 7) & !0x07, i.e. round up to a multiple of 8. -/
def BitReader.eat_byte_align (r : BitReader) : BitReader :=
  { r with pos := ((r.pos + 7) >>> 3) <<< 3 }

/-- BitReader::rivp_item (bit_reader.rs lines 113-116):
(value >> 1) as i32 * if value & 1 != 0 then 1 else -1. -/
def BitReader.rivp_item (r : BitReader) : Int × BitReader :=
  let vp := r.read_int_packed
  (((vp.1 >>> 1 : Nat) : Int) * (if vp.1 &&& 1 ≠ 0 then 1 else -1), vp.2)

/-- BitReader::read_int_vector_packed (bit_reader.rs lines 108-110),
three rivp_item reads left to right. -/
def BitReader.read_int_vector_packed (r : BitReader) : (Int × Int × Int) × BitReader :=
  let a := r.rivp_item
  let b := a.2.rivp_item
  let c := b.2.rivp_item
  ((a.1, b.1, c.1), c.2)

/-- BitReader::read_positive_int_vector_packed (bit_reader.rs lines 119-125). -/
def BitReader.read_positive_int_vector_packed (r : BitReader) : (Nat × Nat × Nat) × BitReader :=
  let a := r.read_int_packed
  let b := a.2.read_int_packed
  let c := b.2.read_int_packed
  ((a.1, b.1, c.1), c.2)

/-- byteorder read_u32 LittleEndian on a BitReader, going through the Read
impl (bit_reader.rs lines 128-133): read_bits into a 4-byte buffer, then
assemble little-endian. -/
def BitReader.read_u32_le (r : BitReader) : Nat × BitReader :=
  let p := r.read_bits [0, 0, 0, 0] 32
  (p.1.getD 0 0 + 256 * p.1.getD 1 0 + 65536 * p.1.getD 2 0 + 16777216 * p.1.getD 3 0, p.2)

/-- BitWriter (bit_writer.rs lines 4-8); the underlying sink W is the byte
list out, the pending byte is cur, the pending bit count is bit. -/
structure BitWriter where
  out : List Nat
  cur : Nat
  bit : Nat
deriving Repr, DecidableEq

/-- BitWriter::new (bit_writer.rs lines 33-35). -/
def BitWriter.new : BitWriter := { out := [], cur := 0, bit := 0 }

/-- BitWriter::write_bit (bit_writer.rs lines 58-73): set bit number bit of
cur when b, then either flush the full byte or advance the bit counter. -/
def BitWriter.write_bit (w : BitWriter) (b : Bool) : BitWriter :=
  let cur := if b then w.cur ||| (1 <<< w.bit) else w.cur
  if w.bit == 7 then { out := w.out ++ [cur], cur := 0, bit := 0 }
  else { out := w.out, cur := cur, bit := w.bit + 1 }

/-- BitWriter::byte_align (bit_writer.rs lines 48-55). -/
def BitWriter.byte_align (w : BitWriter) : BitWriter :=
  if w.bit ≠ 0 then { out := w.out ++ [w.cur], cur := 0, bit := 0 } else w

/-- BitWriter::finish (bit_writer.rs lines 37-40): byte-align and return the
underlying sink. -/
def BitWriter.finish (w : BitWriter) : List Nat := w.byte_align.out

/-- Loop of BitWriter::write_bits_naive (bit_writer.rs lines 81-86): for bit
in 0..bits, write bit number bit of src (the same indexing expression as
bitAt).  write_bits (line 75-78) delegates here. -/
def BitWriter.write_bits_go (src : List Nat) : Nat → Nat → BitWriter → BitWriter
  | 0, _, w => w
  | n + 1, i, w => BitWriter.write_bits_go src n (i + 1) (w.write_bit (bitAt src i))

/-- BitWriter::write_bits_naive / write_bits (bit_writer.rs lines 75-86). -/
def BitWriter.write_bits_naive (w : BitWriter) (bits : Nat) (src : List Nat) : BitWriter :=
  BitWriter.write_bits_go src bits 0 w

/-- Encode-side errors.  invalidInput is io::ErrorKind::InvalidInput
(bit_writer.rs line 229); assertMaxFailed models the assert!(max >= 2)
panic of bit_writer.rs line 226 (a panic, not an Err, in the source). -/
inductive WriteError
  | invalidInput
  | assertMaxFailed
deriving Repr, DecidableEq

/-- Loop of BitWriter::write_int (bit_writer.rs lines 232-241); same fuel
argument as for read_int_loop. -/
def BitWriter.write_int_go : Nat → Nat → Nat → Nat → Nat → BitWriter → BitWriter
  | 0, _, _, _, _, w => w
  | fuel + 1, new_value, mask, value, max, w =>
    if new_value + mask < max ∧ mask ≠ 0 then
      BitWriter.write_int_go fuel
        (if value &&& mask != 0 then new_value ||| mask else new_value)
        ((mask * 2) % 4294967296) value max (w.write_bit (value &&& mask != 0))
    else w

/-- BitWriter::write_int (bit_writer.rs lines 225-244): the assert on max,
the range check on value (both leaving the writer untouched), then the
emission loop. -/
def BitWriter.write_int (w : BitWriter) (value max : Nat) :
    Except WriteError Unit × BitWriter :=
  if max < 2 then (.error .assertMaxFailed, w)
  else if max ≤ value then (.error .invalidInput, w)
  else (.ok (), BitWriter.write_int_go 33 0 1 value max w)

/-- Body of BitWriter::write_int_packed (bit_writer.rs lines 246-257): a
do-while over 7-bit groups, each group a continuation bit followed by the
low 7 bits of the group written through write_bits.  The source loop runs
until the shifted value reaches 0; on its u32 domain that takes at most 5
groups, so 5 iterations of this structural loop reproduce it exactly. -/
def BitWriter.write_int_packed_go : Nat → Nat → BitWriter → BitWriter
  | 0, _, w => w
  | n + 1, value, w =>
    let src := value &&& 127
    let v2 := value >>> 7
    let w2 := (w.write_bit (v2 != 0)).write_bits_naive 7 [src]
    if v2 = 0 then w2 else BitWriter.write_int_packed_go n v2 w2

/-- BitWriter::write_int_packed (bit_writer.rs lines 246-257). -/
def BitWriter.write_int_packed (w : BitWriter) (value : Nat) : BitWriter :=
  BitWriter.write_int_packed_go 5 value w

/-- BitWriter::write_positive_int_vector_packed (bit_writer.rs lines 259-263). -/
def BitWriter.write_positive_int_vector_packed (w : BitWriter) (v : Nat × Nat × Nat) : BitWriter :=
  ((w.write_int_packed v.1).write_int_packed v.2.1).write_int_packed v.2.2

/-- The map closure of BitWriter::write_int_vector_packed (bit_writer.rs
lines 266-268): ((x.abs() as u32) << 1) | (x.is_positive() as u32).  For
x = i32::MIN, x.abs() as u32 wraps to 2^31, matched by natAbs; the u32
shift wraps, hence % 4294967296. -/
def ivp_map (x : Int) : Nat :=
  ((x.natAbs <<< 1) % 4294967296) ||| (if 0 < x then 1 else 0)

/-- BitWriter::write_int_vector_packed (bit_writer.rs lines 265-272). -/
def BitWriter.write_int_vector_packed (w : BitWriter) (v : Int × Int × Int) : BitWriter :=
  ((w.write_int_packed (ivp_map v.1)).write_int_packed (ivp_map v.2.1)).write_int_packed
    (ivp_map v.2.2)

/-- Little-endian byte decomposition of a u32 value. -/
def u32_le_bytes (n : Nat) : List Nat :=
  [n % 256, n / 256 % 256, n / 65536 % 256, n / 16777216 % 256]

/-- byteorder write_u32 LittleEndian on a BitWriter, going through the Write
impl (bit_writer.rs lines 275-284): write_bits of the 4 LE bytes. -/
def BitWriter.write_u32_le (w : BitWriter) (n : Nat) : BitWriter :=
  w.write_bits_naive 32 (u32_le_bytes n)

/-- Version (save.rs lines 141-150). -/
inductive Version
  | initial
  | materialsStoredAsNames
  | addedOwnerData
  | addedDateTime
  | addedComponentsData
  | addedScreenshotData
  | addedGameVersionAndHostAndOwnerDataAndImprovedMaterials
  | renamedComponentDescriptors
deriving Repr, DecidableEq

/-- The u16 discriminant of a Version (save.rs: repr(u16), Initial = 1).
Rust's derived PartialOrd on Version compares these discriminants. -/
def Version.toU16 : Version → Nat
  | .initial => 1
  | .materialsStoredAsNames => 2
  | .addedOwnerData => 3
  | .addedDateTime => 4
  | .addedComponentsData => 5
  | .addedScreenshotData => 6
  | .addedGameVersionAndHostAndOwnerDataAndImprovedMaterials => 7
  | .renamedComponentDescriptors => 8

/-- TryFromPrimitive for Version: the inverse of toU16, None outside 1..=8. -/
def Version.fromU16 : Nat → Option Version
  | 1 => some .initial
  | 2 => some .materialsStoredAsNames
  | 3 => some .addedOwnerData
  | 4 => some .addedDateTime
  | 5 => some .addedComponentsData
  | 6 => some .addedScreenshotData
  | 7 => some .addedGameVersionAndHostAndOwnerDataAndImprovedMaterials
  | 8 => some .renamedComponentDescriptors
  | _ => none

/-- MIN_VERSION_READ (save.rs line 170). -/
def MIN_VERSION_READ : Version := .materialsStoredAsNames

/-- MAX_VERSION_READ (save.rs line 172). -/
def MAX_VERSION_READ : Version := .renamedComponentDescriptors

/-- read_new.rs Error (lines 16-39), the variants this development uses. -/
inductive ReadNewError
  | invalidMagic
  | versionTooOld (raw : Nat)
  | versionTooNew (raw : Nat)
  | versionUnknown
  | invalidCompressedSection
  | unknownScreenshotFormat
  | ioError
deriving Repr, DecidableEq

/-- The version window check of read_new.rs Reader::new (lines 107-118):
reject below MIN_VERSION_READ with VersionTooOld, above MAX_VERSION_READ
with VersionTooNew, then convert through the Version enumeration. -/
def check_version (raw : Nat) : Except ReadNewError Version :=
  if raw < MIN_VERSION_READ.toU16 then .error (.versionTooOld raw)
  else if raw > MAX_VERSION_READ.toU16 then .error (.versionTooNew raw)
  else
    match Version.fromU16 raw with
    | some v => .ok v
    | none => .error .versionUnknown

/-- The fixed default materials list (read.rs lines 392-395 and read_new.rs
lines 314-319). -/
def default_materials : List String :=
  ["BMC_Hologram", "BMC_Plastic", "BMC_Glow", "BMC_Metallic"]

/-- The materials selection of read_header2 (read.rs lines 389-396 and
read_new.rs lines 311-320): if file_version >= MaterialsStoredAsNames the
parsed names array, otherwise the default list. -/
def header2_materials (file_version : Version) (parsed : List String) : List String :=
  if Version.materialsStoredAsNames.toU16 ≤ file_version.toU16 then parsed
  else default_materials

/-- read.rs io-level read errors used by this development. -/
inductive ReadError
  | invalidData (msg : String)
  | eof
deriving Repr, DecidableEq

/-- The size validation of read.rs read_compressed (lines 601-608):
error unless uncompressed_size ≥ 0, compressed_size ≥ 0 and
compressed_size < uncompressed_size. -/
def read_compressed_sizes (uncompressed_size compressed_size : Int) : Except ReadError Unit :=
  if uncompressed_size < 0 ∨ compressed_size < 0 ∨ compressed_size ≥ uncompressed_size then
    .error (.invalidData "Invalid compressed section size")
  else .ok ()

/-- The size validation of read_new.rs compressed_section (lines 379-385):
error unless len is in the Rust range 1..i32::MAX-1 (that is,
1 ≤ len < 2147483646) and compressed_len is in 0..len. -/
def compressed_section_sizes (len compressed_len : Int) : Except ReadNewError Unit :=
  if ¬(1 ≤ len ∧ len < 2147483646) ∨ ¬(0 ≤ compressed_len ∧ compressed_len < len) then
    .error .invalidCompressedSection
  else .ok ()

/-- The brick_count decoding of read.rs read_header1 (line 369):
read_i32()?.try_into().unwrap_or(0), so negatives become 0. -/
def read_header1_brick_count (n : Int) : Nat :=
  if n < 0 then 0 else n.toNat

/-- The brick_count decoding of read_new.rs read_header1 (lines 290-291):
brick_count.try_into().map_err(|source| todo!())?.  On a negative value the
conversion fails and the todo! panics; the panic is modelled as none. -/
def read_new_header1_brick_count (n : Int) : Option Nat :=
  if n < 0 then none else some n.toNat

/-- The UTF-8 encoded length in bytes of one Unicode scalar value; the
summands of Rust's str::len. -/
def utf8_len (c : Nat) : Nat :=
  if c < 128 then 1 else if c < 2048 then 2 else if c < 65536 then 3 else 4

/-- Rust str::len (UTF-8 byte count) of a string given as its list of
Unicode scalar values. -/
def rust_str_len (s : List Nat) : Nat := (s.map utf8_len).sum

/-- Rust str::is_ascii: every code point is 7-bit. -/
def str_is_ascii (s : List Nat) : Bool := s.all (fun c => c < 128)

/-- is_ucs2 (write.rs lines 213-216): number <= 0xd7ff || number >= 0xe000. -/
def is_ucs2 (number : Nat) : Bool := number ≤ 0xd7ff || number ≥ 0xe000

/-- Little-endian byte pair of a u16 value. -/
def u16_le_bytes (n : Nat) : List Nat := [n % 256, n / 256 % 256]

/-- Little-endian bytes of an i32 value (two's complement). -/
def i32_le_bytes (n : Int) : List Nat := u32_le_bytes (n % 4294967296).toNat

/-- The character loop of write_string's UCS-2 branch (write.rs lines
232-241): each code point passing is_ucs2 is written as `character as u16`
(a truncation to 16 bits); otherwise the InvalidInput error
"String contains non-UCS2 characters" is returned. -/
def write_ucs2_units : List Nat → Except WriteError (List Nat)
  | [] => .ok []
  | c :: rest =>
    if is_ucs2 c then (write_ucs2_units rest).map (fun us => (c % 65536) :: us)
    else .error .invalidInput

/-- write_string (write.rs lines 218-247).  ASCII branch: prefix
s.len() + 1, the bytes, a 0 byte.  Otherwise: prefix
-((s.len() + 1) * 2) where s.len() is the UTF-8 byte count, then the UCS-2
units and a 16-bit null terminator. -/
def write_string (s : List Nat) : Except WriteError (List Nat) :=
  if str_is_ascii s then
    .ok (i32_le_bytes ((rust_str_len s : Int) + 1) ++ s ++ [0])
  else
    match write_ucs2_units s with
    | .ok units =>
      .ok (i32_le_bytes (-(((rust_str_len s : Int) + 1) * 2))
        ++ (units.map u16_le_bytes).flatten ++ u16_le_bytes 0)
    | .error e => .error e

/-- Signed little-endian interpretation of 4 bytes (byteorder read_i32). -/
def i32_of_le_bytes (b0 b1 b2 b3 : Nat) : Int :=
  let u := b0 + 256 * b1 + 65536 * b2 + 16777216 * b3
  if u < 2147483648 then (u : Int) else (u : Int) - 4294967296

/-- String::from_utf16 (used by read.rs line 654): decode 16-bit units,
combining surrogate pairs, none on an unpaired surrogate. -/
def utf16_decode : List Nat → Option (List Nat)
  | [] => some []
  | u :: rest =>
    if u < 0xd800 ∨ 0xe000 ≤ u then (utf16_decode rest).map (fun l => u :: l)
    else if u < 0xdc00 then
      match rest with
      | u2 :: rest2 =>
        if 0xdc00 ≤ u2 ∧ u2 < 0xe000 then
          (utf16_decode rest2).map
            (fun l => (0x10000 + (u - 0xd800) * 1024 + (u2 - 0xdc00)) :: l)
        else none
      | [] => none
    else none

/-- String::from_utf8 (used by read.rs line 661): strict UTF-8 decoding with
continuation-byte, overlong, surrogate and range checks. -/
def utf8_decode : List Nat → Option (List Nat)
  | [] => some []
  | b :: rest =>
    if b < 0x80 then (utf8_decode rest).map (fun l => b :: l)
    else if b < 0xc0 then none
    else if b < 0xe0 then
      match rest with
      | c1 :: rest1 =>
        if 0x80 ≤ c1 ∧ c1 < 0xc0 then
          let cp := (b - 0xc0) * 64 + (c1 - 0x80)
          if 0x80 ≤ cp then (utf8_decode rest1).map (fun l => cp :: l) else none
        else none
      | [] => none
    else if b < 0xf0 then
      match rest with
      | c1 :: c2 :: rest2 =>
        if (0x80 ≤ c1 ∧ c1 < 0xc0) ∧ (0x80 ≤ c2 ∧ c2 < 0xc0) then
          let cp := (b - 0xe0) * 4096 + (c1 - 0x80) * 64 + (c2 - 0x80)
          if 0x800 ≤ cp ∧ ¬(0xd800 ≤ cp ∧ cp < 0xe000) then
            (utf8_decode rest2).map (fun l => cp :: l)
          else none
        else none
      | _ => none
    else if b < 0xf8 then
      match rest with
      | c1 :: c2 :: c3 :: rest3 =>
        if (0x80 ≤ c1 ∧ c1 < 0xc0) ∧ (0x80 ≤ c2 ∧ c2 < 0xc0) ∧ (0x80 ≤ c3 ∧ c3 < 0xc0) then
          let cp := (b - 0xf0) * 262144 + (c1 - 0x80) * 4096 + (c2 - 0x80) * 64 + (c3 - 0x80)
          if 0x10000 ≤ cp ∧ cp < 0x110000 then
            (utf8_decode rest3).map (fun l => cp :: l)
          else none
        else none
      | _ => none
    else none

/-- fn string (read.rs lines 639-667): i32 length prefix; negative means
-size 16-bit LE units decoded as UTF-16, non-negative means size bytes
decoded as UTF-8; the final s.pop() (dropLast) strips the terminator.
Returns the decoded code points and the unconsumed input; running out of
input is the eof error of the underlying read_exact / read_u16_into. -/
def string (input : List Nat) : Except ReadError (List Nat × List Nat) :=
  match input with
  | b0 :: b1 :: b2 :: b3 :: rest =>
    let size := i32_of_le_bytes b0 b1 b2 b3
    if size < 0 then
      if size = -2147483648 then .error (.invalidData "Invalid length for Unicode string")
      else
        let n := (-size).toNat
        if 2 * n ≤ rest.length then
          let units := (List.range n).map (fun i => rest.getD (2 * i) 0 + 256 * rest.getD (2 * i + 1) 0)
          match utf16_decode units with
          | some cps => .ok (cps.dropLast, rest.drop (2 * n))
          | none => .error (.invalidData "Invalid Unicode string data")
        else .error .eof
    else
      let n := size.toNat
      if n ≤ rest.length then
        match utf8_decode (rest.take n) with
        | some cps => .ok (cps.dropLast, rest.drop n)
        | none => .error (.invalidData "Invalid ASCII string data")
      else .error .eof
  | _ => .error .eof

/-- Direction (save.rs lines 29-36). -/
inductive Direction
  | xPositive
  | xNegative
  | yPositive
  | yNegative
  | zPositive
  | zNegative
deriving Repr, DecidableEq

/-- IntoPrimitive for Direction (repr u8, XPositive = 0). -/
def Direction.toU8 : Direction → Nat
  | .xPositive => 0
  | .xNegative => 1
  | .yPositive => 2
  | .yNegative => 3
  | .zPositive => 4
  | .zNegative => 5

/-- TryFromPrimitive for Direction; split_orientation only applies it to
values below 6 (the unwrap of read.rs line 708 cannot fail there). -/
def Direction.fromU8 : Nat → Direction
  | 0 => .xPositive
  | 1 => .xNegative
  | 2 => .yPositive
  | 3 => .yNegative
  | 4 => .zPositive
  | _ => .zNegative

/-- Rotation (save.rs lines 42-47). -/
inductive Rotation
  | deg0
  | deg90
  | deg180
  | deg270
deriving Repr, DecidableEq

/-- IntoPrimitive for Rotation (repr u8, Deg0 = 0). -/
def Rotation.toU8 : Rotation → Nat
  | .deg0 => 0
  | .deg90 => 1
  | .deg180 => 2
  | .deg270 => 3

/-- TryFromPrimitive for Rotation; split_orientation only applies it to
values below 4. -/
def Rotation.fromU8 : Nat → Rotation
  | 0 => .deg0
  | 1 => .deg90
  | 2 => .deg180
  | _ => .deg270

/-- ColorMode (save.rs lines 50-55); Color is its raw u32 value. -/
inductive ColorMode
  | set (i : Nat)
  | custom (c : Nat)
deriving Repr, DecidableEq

/-- Brick (save.rs lines 14-25). -/
structure Brick where
  asset_name_index : Nat
  size : Nat × Nat × Nat
  position : Int × Int × Int
  direction : Direction
  rotation : Rotation
  collision : Bool
  visibility : Bool
  material_index : Nat
  color : ColorMode
  owner_index : Option Nat
deriving Repr, DecidableEq

/-- combine_orientation (write.rs lines 269-271). -/
def combine_orientation (direction : Direction) (rotation : Rotation) : Nat :=
  (direction.toU8 <<< 2) ||| rotation.toU8

/-- split_orientation (read.rs lines 707-711). -/
def split_orientation (orientation : Nat) : Direction × Rotation :=
  (Direction.fromU8 ((orientation >>> 2) % 6), Rotation.fromU8 (orientation &&& 3))

/-- Adapter for the ? operator on write_int inside write_save: an error
propagates, otherwise the updated writer continues. -/
def wi (w : BitWriter) (value max : Nat) : Except WriteError BitWriter :=
  match w.write_int value max with
  | (.ok _, w2) => .ok w2
  | (.error e, _) => .error e

/-- The per-brick body of write_save's brick loop (write.rs lines 97-127). -/
def write_brick (brick_assets_len colors_len : Nat) (brick : Brick) (w : BitWriter) :
    Except WriteError BitWriter := do
  let w := w.byte_align
  let w ← wi w brick.asset_name_index (Nat.max brick_assets_len 2)
  let has_size := decide (brick.size ≠ (0, 0, 0))
  let w := w.write_bit has_size
  let w := if has_size then w.write_positive_int_vector_packed brick.size else w
  let w := w.write_int_vector_packed brick.position
  let w ← wi w (combine_orientation brick.direction brick.rotation) 24
  let w := w.write_bit brick.collision
  let w := w.write_bit brick.visibility
  let has_material := decide (brick.material_index ≠ 1)
  let w := w.write_bit has_material
  let w := if has_material then w.write_int_packed brick.material_index else w
  let w ← match brick.color with
    | .set i => wi (w.write_bit false) i colors_len
    | .custom c => .ok ((w.write_bit true).write_u32_le c)
  let w := w.write_int_packed (match brick.owner_index with | none => 0 | some i => i + 1)
  return w

/-- ReadBricks::read_brick (read.rs lines 453-505), parameterized by the
file version and the three lookup-table sizes. -/
def read_brick (version : Version) (brick_asset_num color_num material_num : Nat)
    (r : BitReader) : Brick × BitReader :=
  let r := r.eat_byte_align
  let p1 := r.read_int (Nat.max brick_asset_num 2)
  let pb := p1.2.read_bit
  let ps := if pb.1 then pb.2.read_positive_int_vector_packed else ((0, 0, 0), pb.2)
  let pp := ps.2.read_int_vector_packed
  let po := pp.2.read_int 24
  let pc := po.2.read_bit
  let pv := pc.2.read_bit
  let pm :=
    if Version.addedGameVersionAndHostAndOwnerDataAndImprovedMaterials.toU16 ≤ version.toU16 then
      pv.2.read_int (Nat.max material_num 2)
    else
      let pf := pv.2.read_bit
      if pf.1 then pf.2.read_int_packed else (1, pf.2)
  let pcb := pm.2.read_bit
  let pcol :=
    if !pcb.1 then
      let pi := pcb.2.read_int color_num
      (ColorMode.set pi.1, pi.2)
    else
      let pu := pcb.2.read_u32_le
      (ColorMode.custom pu.1, pu.2)
  let pow :=
    if Version.addedOwnerData.toU16 ≤ version.toU16 then pcol.2.read_int_packed
    else (0, pcol.2)
  let owner_index := match pow.1 with | 0 => none | Nat.succ n => some n
  let dr := split_orientation po.1
  ({ asset_name_index := p1.1, size := ps.1, position := pp.1, direction := dr.1,
     rotation := dr.2, collision := pc.1, visibility := pv.1, material_index := pm.1,
     color := pcol.1, owner_index := owner_index }, pow.2)

/-- MAGIC (lib.rs line 102). -/
def MAGIC : List Nat := [66, 82, 83]

/-- LATEST_VERSION (write.rs line 15). -/
def LATEST_VERSION : Nat := 4

/-- The first five bytes emitted by write_save (write.rs lines 61-62):
the magic followed by the version word as u16 little-endian. -/
def write_save_magic_version : List Nat := MAGIC ++ u16_le_bytes LATEST_VERSION

/-- The low n bits of a value as a list, LSB first. -/
def low_bits (n c : Nat) : List Bool := (List.range n).map (fun i => c.testBit i)

/-- The 8 bits of a byte, LSB first. -/
def byte_bits (b : Nat) : List Bool := low_bits 8 b

/-- All bits of a byte buffer, LSB-first within each byte. -/
def bytes_bits (l : List Nat) : List Bool := (l.map byte_bits).flatten

/-- The bit stream a BitWriter has produced so far: the bits of the flushed
bytes followed by the pending bits of cur. -/
def BitWriter.stream (w : BitWriter) : List Bool := bytes_bits w.out ++ low_bits w.bit w.cur

/-- Well-formedness of a BitWriter state, maintained by every operation:
fewer than 8 pending bits and no stray high bits in cur. -/
def BitWriter.WF (w : BitWriter) : Prop := w.bit < 8 ∧ w.cur < 2 ^ w.bit

/-- The bits of buf, starting at bit position p, are exactly L. -/
def StreamAt (buf : List Nat) (p : Nat) (L : List Bool) : Prop :=
  ∀ j, j < L.length → bitAt buf (p + j) = L.getD j false

/-- The bit sequence emitted by the write_int loop (bit_writer.rs lines
232-241), in lockstep with write_int_go. -/
def int_bits_loop : Nat → Nat → Nat → Nat → Nat → List Bool
  | 0, _, _, _, _ => []
  | fuel + 1, new_value, mask, value, max =>
    if new_value + mask < max ∧ mask ≠ 0 then
      (value &&& mask != 0) ::
        int_bits_loop fuel (if value &&& mask != 0 then new_value ||| mask else new_value)
          ((mask * 2) % 4294967296) value max
    else []

/-- The bit sequence emitted by write_int for a given value and max. -/
def int_bits (value max : Nat) : List Bool := int_bits_loop 33 0 1 value max

/-- The bit sequence emitted by the write_int_packed group loop, in
lockstep with write_int_packed_go. -/
def int_packed_bits_go : Nat → Nat → List Bool
  | 0, _ => []
  | n + 1, value =>
    let src := value &&& 127
    let v2 := value >>> 7
    ((v2 != 0) :: low_bits 7 src) ++ (if v2 = 0 then [] else int_packed_bits_go n v2)

/-- The bit sequence emitted by write_int_packed: per 7-bit group a
continuation bit then the group's low 7 bits. -/
def int_packed_bits (value : Nat) : List Bool := int_packed_bits_go 5 value

/-- The 32 bits emitted for a u32 little-endian write through the BitWriter
Write impl. -/
def u32_le_bits (n : Nat) : List Bool := (List.range 32).map (fun i => bitAt (u32_le_bytes n) i)

/-- The bit sequence write_save's per-brick loop (write.rs lines 97-127)
appends for one brick, after the leading byte alignment: bounded-int asset
index, size flag and optional positive vector, signed position vector,
bounded-int orientation, collision and visibility bits, the one-bit
material flag (set iff material_index differs from the default 1) followed
by a varint when set, the color flag with bounded-int table index or raw
little-endian u32, and the owner as a varint (owner_index+1, 0 for none). -/
def brick_bits (brick_assets_len colors_len : Nat) (brick : Brick) : List Bool :=
  int_bits brick.asset_name_index (Nat.max brick_assets_len 2)
    ++ [decide (brick.size ≠ (0, 0, 0))]
    ++ (if decide (brick.size ≠ (0, 0, 0)) then
          int_packed_bits brick.size.1 ++ int_packed_bits brick.size.2.1
            ++ int_packed_bits brick.size.2.2
        else [])
    ++ int_packed_bits (ivp_map brick.position.1)
    ++ int_packed_bits (ivp_map brick.position.2.1)
    ++ int_packed_bits (ivp_map brick.position.2.2)
    ++ int_bits (combine_orientation brick.direction brick.rotation) 24
    ++ [brick.collision]
    ++ [brick.visibility]
    ++ [decide (brick.material_index ≠ 1)]
    ++ (if decide (brick.material_index ≠ 1) then int_packed_bits brick.material_index else [])
    ++ (match brick.color with
        | .set i => false :: int_bits i colors_len
        | .custom c => true :: u32_le_bits c)
    ++ int_packed_bits (match brick.owner_index with | none => 0 | some i => i + 1)

/-- Failing input for claim C1: a brick with a Custom color (and an owner),
written against a one-entry asset table and a one-entry color table. -/
def c1_brick : Brick :=
  { asset_name_index := 0, size := (0, 0, 0), position := (0, 0, 0),
    direction := .xPositive, rotation := .deg0, collision := true, visibility := true,
    material_index := 1, color := .custom 2864434397, owner_index := some 5 }

/-- The brick-section bytes write_save produces for c1_brick. -/
def c1_bytes : List Nat :=
  match write_brick 1 1 c1_brick BitWriter.new with
  | .ok w => w.finish
  | .error _ => []

/-- Concrete brick for the claim C2 witness: non-default material, table
color, explicit size, mixed-sign position, an owner. -/
def c2_brick : Brick :=
  { asset_name_index := 1, size := (1, 2, 3), position := (4, -5, 0),
    direction := .zPositive, rotation := .deg90, collision := false, visibility := true,
    material_index := 7, color := .set 2, owner_index := some 1 }

deriving instance DecidableEq for Except

end Brs

set_option maxRecDepth 40000

namespace Brs

theorem pow32 : (4294967296 : Nat) = 2 ^ 32 := by norm_num

theorem and_two_pow_eq (b k : Nat) : b &&& 2 ^ k = if b.testBit k then 2 ^ k else 0 := by
  apply Nat.eq_of_testBit_eq
  intro i
  simp only [Nat.testBit_and, Nat.testBit_two_pow]
  by_cases hik : k = i
  · subst hik
    cases hb : b.testBit k <;> simp [hb]
  · cases hb : b.testBit k <;> simp [hb, hik, Nat.testBit_two_pow]

theorem and_shift_one_ne (b k : Nat) : (b &&& (1 <<< k) != 0) = b.testBit k := by
  have h : (1 : Nat) <<< k = 2 ^ k := by rw [Nat.shiftLeft_eq, Nat.one_mul]
  rw [h, and_two_pow_eq]
  cases hb : b.testBit k <;> simp [Nat.pos_iff_ne_zero.mp (Nat.two_pow_pos k)]

theorem shiftRight_three (i : Nat) : i >>> 3 = i / 8 := by
  rw [Nat.shiftRight_eq_div_pow]

theorem and_seven (i : Nat) : i &&& 7 = i % 8 := by
  have h7 : (7 : Nat) = 2 ^ 3 - 1 := by norm_num
  rw [h7, Nat.and_pow_two_sub_one_eq_mod]

theorem bitAt_testBit (buf : List Nat) (i : Nat) :
    bitAt buf i = (buf.getD (i / 8) 0).testBit (i % 8) := by
  unfold bitAt
  rw [shiftRight_three, and_seven, and_shift_one_ne]

theorem getD_append_left {α : Type} {l1 l2 : List α} {n : Nat} (d : α) (h : n < l1.length) :
    (l1 ++ l2).getD n d = l1.getD n d := by
  simp [List.getD_eq_getElem?_getD, List.getElem?_append_left h]

theorem getD_append_right {α : Type} {l1 l2 : List α} {n : Nat} (d : α) (h : l1.length ≤ n) :
    (l1 ++ l2).getD n d = l2.getD (n - l1.length) d := by
  simp [List.getD_eq_getElem?_getD, List.getElem?_append_right h]

theorem low_bits_length (n c : Nat) : (low_bits n c).length = n := by
  simp [low_bits]

theorem low_bits_getD (n c j : Nat) (h : j < n) : (low_bits n c).getD j false = c.testBit j := by
  simp [low_bits, List.getD_eq_getElem?_getD, List.getElem?_map, List.getElem?_range h]

theorem byte_bits_length (b : Nat) : (byte_bits b).length = 8 := by
  simp [byte_bits, low_bits_length]

theorem bytes_bits_getD (l : List Nat) (i : Nat) : (bytes_bits l).getD i false = bitAt l i := by
  induction l generalizing i with
  | nil =>
    simp [bytes_bits, bitAt, List.getD]
  | cons x xs ih =>
    have hb : bytes_bits (x :: xs) = byte_bits x ++ bytes_bits xs := by
      simp [bytes_bits]
    rw [hb]
    by_cases h : i < 8
    · rw [getD_append_left false (by rw [byte_bits_length]; exact h)]
      rw [byte_bits, low_bits_getD 8 x i h, bitAt_testBit]
      have h1 : i / 8 = 0 := by omega
      have h2 : i % 8 = i := by omega
      rw [h1, h2]
      rfl
    · rw [getD_append_right false (by rw [byte_bits_length]; omega)]
      rw [byte_bits_length, ih (i - 8), bitAt_testBit, bitAt_testBit]
      have h1 : i / 8 = (i - 8) / 8 + 1 := by omega
      have h2 : i % 8 = (i - 8) % 8 := by omega
      rw [h1, h2]
      rfl

theorem streamAt_nil (buf : List Nat) (p : Nat) : StreamAt buf p [] := by
  intro j hj
  simp at hj

theorem streamAt_cons {buf : List Nat} {p : Nat} {b : Bool} {L : List Bool} :
    StreamAt buf p (b :: L) ↔ bitAt buf p = b ∧ StreamAt buf (p + 1) L := by
  constructor
  · intro h
    refine ⟨?_, ?_⟩
    · have h0 := h 0 (by simp)
      simpa using h0
    · intro j hj
      have hj1 := h (j + 1) (by simp; omega)
      have e : p + (j + 1) = p + 1 + j := by omega
      rw [e] at hj1
      simpa using hj1
  · rintro ⟨h1, h2⟩ j hj
    cases j with
    | zero => simpa using h1
    | succ j2 =>
      have hj2 : j2 < L.length := by simp at hj; omega
      have := h2 j2 hj2
      have e : p + (j2 + 1) = p + 1 + j2 := by omega
      rw [e]
      simpa using this

theorem streamAt_append {buf : List Nat} {p : Nat} {L1 L2 : List Bool} :
    StreamAt buf p (L1 ++ L2) ↔ StreamAt buf p L1 ∧ StreamAt buf (p + L1.length) L2 := by
  constructor
  · intro h
    refine ⟨fun j hj => ?_, fun j hj => ?_⟩
    · have hl := h j (by simp; omega)
      rwa [getD_append_left false hj] at hl
    · have hl := h (L1.length + j) (by simp; omega)
      rw [getD_append_right false (by omega)] at hl
      have e1 : p + (L1.length + j) = p + L1.length + j := by omega
      have e2 : L1.length + j - L1.length = j := by omega
      rw [e1, e2] at hl
      exact hl
  · rintro ⟨h1, h2⟩ j hj
    by_cases hc : j < L1.length
    · rw [getD_append_left false hc]
      exact h1 j hc
    · rw [getD_append_right false (by omega)]
      have hj2 : j - L1.length < L2.length := by simp at hj; omega
      have := h2 (j - L1.length) hj2
      have e : p + L1.length + (j - L1.length) = p + j := by omega
      rwa [e] at this

theorem low_bits_succ (n c : Nat) : low_bits (n + 1) c = low_bits n c ++ [c.testBit n] := by
  simp [low_bits, List.range_succ]

theorem low_bits_congr {n a b2 : Nat} (h : ∀ i, i < n → a.testBit i = b2.testBit i) :
    low_bits n a = low_bits n b2 := by
  simp only [low_bits]
  apply List.map_congr_left
  intro i hi
  exact h i (List.mem_range.mp hi)

theorem low_bits_zero_val (n : Nat) : low_bits n 0 = List.replicate n false := by
  induction n with
  | zero => simp [low_bits]
  | succ k ih => rw [low_bits_succ, ih, Nat.zero_testBit, ← List.replicate_succ']

theorem bytes_bits_append (l1 l2 : List Nat) :
    bytes_bits (l1 ++ l2) = bytes_bits l1 ++ bytes_bits l2 := by
  simp [bytes_bits]

theorem bytes_bits_single (c : Nat) : bytes_bits [c] = byte_bits c := by
  simp [bytes_bits]

theorem low_bits_split {m n c : Nat} (h : m ≤ n) (hc : c < 2 ^ m) :
    low_bits n c = low_bits m c ++ List.replicate (n - m) false := by
  induction n with
  | zero =>
    have hm : m = 0 := by omega
    subst hm
    simp [low_bits]
  | succ k ih =>
    by_cases hmk : m = k + 1
    · subst hmk
      simp
    · have hmk2 : m ≤ k := by omega
      have htb : c.testBit k = false :=
        Nat.testBit_lt_two_pow (lt_of_lt_of_le hc (Nat.pow_le_pow_right (by norm_num) hmk2))
      rw [low_bits_succ, ih hmk2, htb]
      have hrep : k + 1 - m = (k - m) + 1 := by omega
      rw [hrep, List.replicate_succ']
      simp [List.append_assoc]

theorem stream_write_bit (w : BitWriter) (b : Bool) (hw : w.WF) :
    (w.write_bit b).stream = w.stream ++ [b] ∧ (w.write_bit b).WF := by
  obtain ⟨hbit, hcur⟩ := hw
  have h1l : (1 : Nat) <<< w.bit = 2 ^ w.bit := by rw [Nat.shiftLeft_eq, Nat.one_mul]
  have htb : ∀ i, i < w.bit →
      (if b then w.cur ||| (1 <<< w.bit) else w.cur).testBit i = w.cur.testBit i := by
    intro i hi
    cases b
    · simp
    · simp [Nat.testBit_or, h1l, Nat.testBit_two_pow_of_ne (by omega : w.bit ≠ i)]
  have htbb : (if b then w.cur ||| (1 <<< w.bit) else w.cur).testBit w.bit = b := by
    have hz : w.cur.testBit w.bit = false := Nat.testBit_lt_two_pow hcur
    cases b
    · simpa using hz
    · simp [Nat.testBit_or, h1l, hz, Nat.testBit_two_pow_self]
  have hc2 : (if b then w.cur ||| (1 <<< w.bit) else w.cur) < 2 ^ (w.bit + 1) := by
    have hstep : (2 : Nat) ^ w.bit < 2 ^ (w.bit + 1) :=
      Nat.pow_lt_pow_right (by norm_num) (by omega)
    cases b
    · simpa using lt_trans hcur hstep
    · simpa using Nat.or_lt_two_pow (lt_trans hcur hstep) (by rw [h1l]; exact hstep)
  have hlow : low_bits (w.bit + 1) (if b then w.cur ||| (1 <<< w.bit) else w.cur)
      = low_bits w.bit w.cur ++ [b] := by
    rw [low_bits_succ, htbb, low_bits_congr htb]
  by_cases h7 : w.bit = 7
  · constructor
    · simp only [BitWriter.write_bit, h7, if_pos, BitWriter.stream]
      rw [if_pos (by norm_num)]
      show bytes_bits (w.out ++ [if b then w.cur ||| 1 <<< 7 else w.cur]) ++ low_bits 0 0
        = bytes_bits w.out ++ low_bits 7 w.cur ++ [b]
      rw [bytes_bits_append, bytes_bits_single]
      have hb8 : byte_bits (if b then w.cur ||| 1 <<< 7 else w.cur)
          = low_bits 7 w.cur ++ [b] := by
        have := hlow
        rw [h7] at this
        exact this
      rw [hb8]
      simp [low_bits, List.append_assoc]
    · constructor
      · simp [BitWriter.write_bit, h7]
      · simp [BitWriter.write_bit, h7]
  · have h7' : (w.bit == 7) = false := by simp [h7]
    constructor
    · simp only [BitWriter.write_bit, h7', Bool.false_eq_true, if_false, BitWriter.stream]
      rw [hlow]
      simp [List.append_assoc]
    · constructor
      · simp [BitWriter.write_bit, h7']
        omega
      · simp only [BitWriter.write_bit, h7', Bool.false_eq_true, if_false]
        exact hc2

theorem stream_write_bits_go (src : List Nat) :
    ∀ (n i : Nat) (w : BitWriter), w.WF →
      (BitWriter.write_bits_go src n i w).stream
          = w.stream ++ (List.range' i n).map (bitAt src) ∧
      (BitWriter.write_bits_go src n i w).WF := by
  intro n
  induction n with
  | zero =>
    intro i w hw
    simp [BitWriter.write_bits_go, hw]
  | succ k ih =>
    intro i w hw
    obtain ⟨hs1, hw1⟩ := stream_write_bit w (bitAt src i) hw
    have hgo : BitWriter.write_bits_go src (k + 1) i w
        = BitWriter.write_bits_go src k (i + 1) (w.write_bit (bitAt src i)) := rfl
    obtain ⟨hs2, hw2⟩ := ih (i + 1) (w.write_bit (bitAt src i)) hw1
    rw [hgo]
    refine ⟨?_, hw2⟩
    rw [hs2, hs1, List.range'_succ]
    simp [List.append_assoc]

theorem stream_write_bits_naive (w : BitWriter) (bits : Nat) (src : List Nat) (hw : w.WF) :
    (w.write_bits_naive bits src).stream = w.stream ++ (List.range bits).map (bitAt src) ∧
    (w.write_bits_naive bits src).WF := by
  rw [List.range_eq_range']
  exact stream_write_bits_go src bits 0 w hw

theorem stream_byte_align (w : BitWriter) (hw : w.WF) :
    (w.byte_align).stream = w.stream ++ List.replicate ((8 - w.bit) % 8) false ∧
    (w.byte_align).WF ∧ (w.byte_align).bit = 0 := by
  obtain ⟨hbit, hcur⟩ := hw
  by_cases h0 : w.bit = 0
  · have heq : w.byte_align = w := by simp [BitWriter.byte_align, h0]
    rw [heq, h0]
    exact ⟨by simp, ⟨hbit, hcur⟩, rfl⟩
  · refine ⟨?_, ⟨?_, ?_⟩, ?_⟩
    · simp only [BitWriter.byte_align, if_pos h0, BitWriter.stream]
      show bytes_bits (w.out ++ [w.cur]) ++ low_bits 0 0
          = bytes_bits w.out ++ low_bits w.bit w.cur ++ List.replicate ((8 - w.bit) % 8) false
      rw [bytes_bits_append, bytes_bits_single]
      have h8 : byte_bits w.cur = low_bits w.bit w.cur ++ List.replicate (8 - w.bit) false :=
        low_bits_split (by omega) hcur
      have hmod : (8 - w.bit) % 8 = 8 - w.bit := by omega
      rw [h8, hmod]
      simp [low_bits, List.append_assoc]
    · simp [BitWriter.byte_align, h0]
    · simp [BitWriter.byte_align, h0]
    · simp [BitWriter.byte_align, h0]

theorem bytes_bits_finish (w : BitWriter) (hw : w.WF) :
    bytes_bits w.finish = w.stream ++ List.replicate ((8 - w.bit) % 8) false := by
  obtain ⟨hs, _, hb0⟩ := stream_byte_align w hw
  have heq : bytes_bits w.finish = (w.byte_align).stream := by
    unfold BitWriter.finish BitWriter.stream
    rw [hb0]
    simp [low_bits]
  rw [heq, hs]

theorem streamAt_finish (w : BitWriter) (hw : w.WF) : StreamAt w.finish 0 w.stream := by
  intro j hj
  rw [Nat.zero_add, ← bytes_bits_getD, bytes_bits_finish w hw, getD_append_left false hj]

theorem stream_write_int_go :
    ∀ (fuel new_value mask value mx : Nat) (w : BitWriter), w.WF →
      (BitWriter.write_int_go fuel new_value mask value mx w).stream
          = w.stream ++ int_bits_loop fuel new_value mask value mx ∧
      (BitWriter.write_int_go fuel new_value mask value mx w).WF := by
  intro fuel
  induction fuel with
  | zero =>
    intro nv mask v mx w hw
    simp [BitWriter.write_int_go, int_bits_loop, hw]
  | succ k ih =>
    intro nv mask v mx w hw
    by_cases hc : nv + mask < mx ∧ mask ≠ 0
    · have hgo : BitWriter.write_int_go (k + 1) nv mask v mx w
          = BitWriter.write_int_go k (if v &&& mask != 0 then nv ||| mask else nv)
              ((mask * 2) % 4294967296) v mx (w.write_bit (v &&& mask != 0)) := by
        simp [BitWriter.write_int_go, hc]
      have hbl : int_bits_loop (k + 1) nv mask v mx
          = (v &&& mask != 0) ::
              int_bits_loop k (if v &&& mask != 0 then nv ||| mask else nv)
                ((mask * 2) % 4294967296) v mx := by
        simp [int_bits_loop, hc]
      obtain ⟨hs1, hw1⟩ := stream_write_bit w (v &&& mask != 0) hw
      obtain ⟨hs2, hw2⟩ := ih _ _ _ _ _ hw1
      rw [hgo, hbl]
      refine ⟨?_, hw2⟩
      rw [hs2, hs1]
      simp [List.append_assoc]
    · simp [BitWriter.write_int_go, int_bits_loop, hc, hw]

theorem write_int_ok (w : BitWriter) (v mx : Nat) (hw : w.WF) (h2 : 2 ≤ mx) (hv : v < mx) :
    (w.write_int v mx).1 = Except.ok () ∧
    ((w.write_int v mx).2).stream = w.stream ++ int_bits v mx ∧ ((w.write_int v mx).2).WF := by
  have hne1 : ¬ mx < 2 := by omega
  have hne2 : ¬ mx ≤ v := by omega
  simp only [BitWriter.write_int, if_neg hne1, if_neg hne2]
  obtain ⟨hs, hwf⟩ := stream_write_int_go 33 0 1 v mx w hw
  exact ⟨trivial, hs, hwf⟩

theorem wi_ok {w w2 : BitWriter} {v mx : Nat} (hw : w.WF) (h : wi w v mx = .ok w2) :
    w2.stream = w.stream ++ int_bits v mx ∧ w2.WF := by
  by_cases h1 : mx < 2
  · simp [wi, BitWriter.write_int, h1] at h
  by_cases h2 : mx ≤ v
  · simp [wi, BitWriter.write_int, h1, h2] at h
  have hgo := stream_write_int_go 33 0 1 v mx w hw
  have hw2 : w2 = BitWriter.write_int_go 33 0 1 v mx w := by
    simp [wi, BitWriter.write_int, h1, h2] at h
    exact h.symm
  rw [hw2]
  exact ⟨hgo.1, hgo.2⟩

theorem bitAt_single (s i : Nat) (h : i < 8) : bitAt [s] i = s.testBit i := by
  rw [bitAt_testBit]
  have e1 : i / 8 = 0 := by omega
  have e2 : i % 8 = i := by omega
  rw [e1, e2]
  rfl

theorem range7_map_bitAt (s : Nat) :
    (List.range 7).map (bitAt [s]) = low_bits 7 s := by
  unfold low_bits
  apply List.map_congr_left
  intro i hi
  exact bitAt_single s i (by have := List.mem_range.mp hi; omega)

theorem stream_write_int_packed_go :
    ∀ (n value : Nat) (w : BitWriter), w.WF →
      (BitWriter.write_int_packed_go n value w).stream = w.stream ++ int_packed_bits_go n value ∧
      (BitWriter.write_int_packed_go n value w).WF := by
  intro n
  induction n with
  | zero =>
    intro v w hw
    simp [BitWriter.write_int_packed_go, int_packed_bits_go, hw]
  | succ k ih =>
    intro v w hw
    obtain ⟨hs1, hw1⟩ := stream_write_bit w (v >>> 7 != 0) hw
    obtain ⟨hs2, hw2⟩ :=
      stream_write_bits_naive (w.write_bit (v >>> 7 != 0)) 7 [v &&& 127] hw1
    by_cases hz : v >>> 7 = 0
    · have hgo : BitWriter.write_int_packed_go (k + 1) v w
          = (w.write_bit (v >>> 7 != 0)).write_bits_naive 7 [v &&& 127] := by
        simp [BitWriter.write_int_packed_go, hz]
      have hbits : int_packed_bits_go (k + 1) v = (v >>> 7 != 0) :: low_bits 7 (v &&& 127) := by
        simp [int_packed_bits_go, hz]
      rw [hgo, hbits]
      refine ⟨?_, hw2⟩
      rw [hs2, hs1, range7_map_bitAt]
      simp [List.append_assoc]
    · have hgo : BitWriter.write_int_packed_go (k + 1) v w
          = BitWriter.write_int_packed_go k (v >>> 7)
              ((w.write_bit (v >>> 7 != 0)).write_bits_naive 7 [v &&& 127]) := by
        simp [BitWriter.write_int_packed_go, hz]
      have hbits : int_packed_bits_go (k + 1) v
          = ((v >>> 7 != 0) :: low_bits 7 (v &&& 127)) ++ int_packed_bits_go k (v >>> 7) := by
        simp [int_packed_bits_go, hz]
      obtain ⟨hs3, hw3⟩ := ih (v >>> 7) _ hw2
      rw [hgo, hbits]
      refine ⟨?_, hw3⟩
      rw [hs3, hs2, hs1, range7_map_bitAt]
      simp [List.append_assoc]

theorem stream_write_int_packed (w : BitWriter) (v : Nat) (hw : w.WF) :
    (w.write_int_packed v).stream = w.stream ++ int_packed_bits v ∧
    (w.write_int_packed v).WF :=
  stream_write_int_packed_go 5 v w hw

theorem mod_two_pow_succ_or (v k nv : Nat) (hnv : nv = v % 2 ^ k) :
    (if v.testBit k then nv ||| 2 ^ k else nv) = v % 2 ^ (k + 1) := by
  subst hnv
  by_cases htb : v.testBit k = true
  · rw [if_pos htb]
    apply Nat.eq_of_testBit_eq
    intro i
    simp only [Nat.testBit_or, Nat.testBit_mod_two_pow, Nat.testBit_two_pow]
    rcases Nat.lt_trichotomy i k with h | h | h
    · have d1 : decide (i < k) = true := by simp only [decide_eq_true_eq]; omega
      have d2 : decide (i < k + 1) = true := by simp only [decide_eq_true_eq]; omega
      have d3 : decide (k = i) = false := by simp only [decide_eq_false_iff_not]; omega
      rw [d1, d2, d3]
      simp
    · subst h
      have d1 : decide (i < i) = false := by simp only [decide_eq_false_iff_not]; omega
      have d2 : decide (i < i + 1) = true := by simp only [decide_eq_true_eq]; omega
      have d3 : decide (i = i) = true := by simp only [decide_eq_true_eq]
      rw [d1, d2, d3]
      simp [htb]
    · have d1 : decide (i < k) = false := by simp only [decide_eq_false_iff_not]; omega
      have d2 : decide (i < k + 1) = false := by simp only [decide_eq_false_iff_not]; omega
      have d3 : decide (k = i) = false := by simp only [decide_eq_false_iff_not]; omega
      rw [d1, d2, d3]
      simp
  · have htb2 : v.testBit k = false := by
      cases hh : v.testBit k
      · rfl
      · exact absurd hh htb
    rw [if_neg htb]
    apply Nat.eq_of_testBit_eq
    intro i
    simp only [Nat.testBit_mod_two_pow]
    rcases Nat.lt_trichotomy i k with h | h | h
    · have d1 : decide (i < k) = true := by simp only [decide_eq_true_eq]; omega
      have d2 : decide (i < k + 1) = true := by simp only [decide_eq_true_eq]; omega
      rw [d1, d2]
    · subst h
      have d1 : decide (i < i) = false := by simp only [decide_eq_false_iff_not]; omega
      have d2 : decide (i < i + 1) = true := by simp only [decide_eq_true_eq]; omega
      rw [d1, d2]
      simp [htb2]
    · have d1 : decide (i < k) = false := by simp only [decide_eq_false_iff_not]; omega
      have d2 : decide (i < k + 1) = false := by simp only [decide_eq_false_iff_not]; omega
      rw [d1, d2]

theorem and_mask_testBit (v k : Nat) : (v &&& 2 ^ k != 0) = v.testBit k := by
  rw [and_two_pow_eq]
  cases htb : v.testBit k <;>
    simp [htb, Nat.pos_iff_ne_zero.mp (Nat.two_pow_pos k)]

theorem read_int_loop_decodes (v mx : Nat) (hv : v < mx) (hmx : mx ≤ 2 ^ 32) :
    ∀ (fuel k nv : Nat) (buf : List Nat) (p : Nat),
      k ≤ 32 → 33 ≤ fuel + k → nv = v % 2 ^ k →
      StreamAt buf p (int_bits_loop fuel nv (2 ^ k % 4294967296) v mx) →
      BitReader.read_int_loop fuel nv (2 ^ k % 4294967296) mx ⟨buf, p⟩
        = (v, ⟨buf, p + (int_bits_loop fuel nv (2 ^ k % 4294967296) v mx).length⟩) := by
  intro fuel
  induction fuel with
  | zero =>
    intro k nv buf p hk hf _ _
    omega
  | succ f ih =>
    intro k nv buf p hk hf hnv hs
    by_cases hk32 : k = 32
    · have hm0 : 2 ^ k % 4294967296 = 0 := by rw [hk32, pow32, Nat.mod_self]
      have hcond : ¬(nv + 2 ^ k % 4294967296 < mx ∧ 2 ^ k % 4294967296 ≠ 0) := by
        rw [hm0]
        simp
      have hnveq : nv = v := by
        rw [hnv, hk32, Nat.mod_eq_of_lt (lt_of_lt_of_le hv hmx)]
      simp only [int_bits_loop, if_neg hcond, BitReader.read_int_loop, List.length_nil]
      rw [hnveq]
      simp
    · have hklt : k < 32 := by omega
      have hmask : 2 ^ k % 4294967296 = 2 ^ k := by
        rw [pow32]
        exact Nat.mod_eq_of_lt (Nat.pow_lt_pow_right (by norm_num) hklt)
      by_cases hcond : nv + 2 ^ k < mx
      · have hcond2 : nv + 2 ^ k % 4294967296 < mx ∧ 2 ^ k % 4294967296 ≠ 0 := by
          rw [hmask]
          exact ⟨hcond, Nat.pos_iff_ne_zero.mp (Nat.two_pow_pos k)⟩
        have hbit : (v &&& 2 ^ k % 4294967296 != 0) = v.testBit k := by
          rw [hmask, and_mask_testBit]
        have hmask2 : (2 ^ k % 4294967296 * 2) % 4294967296 = 2 ^ (k + 1) % 4294967296 := by
          rw [hmask, ← pow_succ]
        have hnv2 : (if v.testBit k then nv ||| 2 ^ k % 4294967296 else nv) = v % 2 ^ (k + 1) := by
          rw [hmask]
          exact mod_two_pow_succ_or v k nv hnv
        have henc : int_bits_loop (f + 1) nv (2 ^ k % 4294967296) v mx
            = v.testBit k ::
                int_bits_loop f (v % 2 ^ (k + 1)) (2 ^ (k + 1) % 4294967296) v mx := by
          conv_lhs => rw [int_bits_loop]
          rw [if_pos hcond2, hbit, hnv2, hmask2]
        rw [henc] at hs
        rw [streamAt_cons] at hs
        obtain ⟨hs1, hs2⟩ := hs
        have hrd : BitReader.read_int_loop (f + 1) nv (2 ^ k % 4294967296) mx ⟨buf, p⟩
            = BitReader.read_int_loop f (v % 2 ^ (k + 1)) (2 ^ (k + 1) % 4294967296) mx
                ⟨buf, p + 1⟩ := by
          conv_lhs => rw [BitReader.read_int_loop]
          rw [if_pos hcond2]
          show BitReader.read_int_loop f
              (if bitAt buf p then nv ||| 2 ^ k % 4294967296 else nv)
              (2 ^ k % 4294967296 * 2 % 4294967296) mx ⟨buf, p + 1⟩ = _
          rw [hs1, hnv2, hmask2]
        rw [hrd, henc]
        have hrec := ih (k + 1) (v % 2 ^ (k + 1)) buf (p + 1) (by omega) (by omega) rfl hs2
        rw [hrec]
        simp only [List.length_cons]
        have e : p + 1 + (int_bits_loop f (v % 2 ^ (k + 1)) (2 ^ (k + 1) % 4294967296) v
            mx).length
            = p + ((int_bits_loop f (v % 2 ^ (k + 1)) (2 ^ (k + 1) % 4294967296) v
              mx).length + 1) := by
          omega
        rw [e]
      · have hcondn : ¬(nv + 2 ^ k % 4294967296 < mx ∧ 2 ^ k % 4294967296 ≠ 0) := by
          rw [hmask]
          intro hand
          exact hcond hand.1
        have hvlt : v < 2 ^ k := by
          by_contra hge
          push_neg at hge
          have hdm := Nat.div_add_mod v (2 ^ k)
          have hdiv : 1 ≤ v / 2 ^ k := (Nat.one_le_div_iff (Nat.two_pow_pos k)).mpr hge
          have hle : 2 ^ k * 1 ≤ 2 ^ k * (v / 2 ^ k) :=
            Nat.mul_le_mul_left (2 ^ k) hdiv
          omega
        have hnveq : nv = v := by rw [hnv, Nat.mod_eq_of_lt hvlt]
        simp only [int_bits_loop, if_neg hcondn, BitReader.read_int_loop, List.length_nil]
        rw [hnveq]
        simp

theorem testBit_ite_one (b : Bool) (t : Nat) :
    (if b then 1 else 0 : Nat).testBit t = (b && decide (t = 0)) := by
  cases b
  · simp
  · cases t
    · simp
    · simp [Nat.testBit_add_one]

theorem bit_cons_shift (s m shift : Nat) :
    ((if s.testBit 0 then 1 else 0) <<< shift) ||| ((s / 2 % 2 ^ m) <<< (shift + 1))
      = (s % 2 ^ (m + 1)) <<< shift := by
  apply Nat.eq_of_testBit_eq
  intro i
  simp only [Nat.testBit_or, Nat.testBit_shiftLeft, Nat.testBit_mod_two_pow, testBit_ite_one]
  by_cases h1 : i < shift
  · have d1 : decide (i ≥ shift) = false := by simp only [decide_eq_false_iff_not]; omega
    have d2 : decide (i ≥ shift + 1) = false := by simp only [decide_eq_false_iff_not]; omega
    rw [d1, d2]
    simp
  · by_cases h2 : i = shift
    · subst h2
      have d1 : decide (i ≥ i) = true := by simp only [decide_eq_true_eq]; omega
      have d2 : decide (i ≥ i + 1) = false := by simp only [decide_eq_false_iff_not]; omega
      have d3 : decide (i - i = 0) = true := by simp only [decide_eq_true_eq]; omega
      have d4 : decide (i - i < m + 1) = true := by simp only [decide_eq_true_eq]; omega
      have d5 : i - i = 0 := by omega
      rw [d1, d2, d3, d4, d5]
      simp
    · have d1 : decide (i ≥ shift) = true := by simp only [decide_eq_true_eq]; omega
      have d2 : decide (i ≥ shift + 1) = true := by simp only [decide_eq_true_eq]; omega
      have d3 : decide (i - shift = 0) = false := by simp only [decide_eq_false_iff_not]; omega
      rw [d1, d2, d3]
      have e1 : i - (shift + 1) = i - shift - 1 := by omega
      have e2 : (s / 2).testBit (i - shift - 1) = s.testBit (i - shift) := by
        rw [Nat.testBit_div_two]
        have e3 : i - shift - 1 + 1 = i - shift := by omega
        rw [e3]
      have e4 : decide (i - shift - 1 < m) = decide (i - shift < m + 1) := by
        by_cases hm : i - shift < m + 1
        · have da : decide (i - shift - 1 < m) = true := by simp only [decide_eq_true_eq]; omega
          have db : decide (i - shift < m + 1) = true := by simp only [decide_eq_true_eq]; omega
          rw [da, db]
        · have da : decide (i - shift - 1 < m) = false := by
            simp only [decide_eq_false_iff_not]; omega
          have db : decide (i - shift < m + 1) = false := by
            simp only [decide_eq_false_iff_not]; omega
          rw [da, db]
      rw [e1, e2, e4]
      simp

theorem read_part_go_decodes :
    ∀ (n s part shift : Nat) (buf : List Nat) (p : Nat),
      (∀ j, j < n → bitAt buf (p + j) = s.testBit j) →
      BitReader.read_part_go n part shift ⟨buf, p⟩
        = (part ||| (s % 2 ^ n) <<< shift, ⟨buf, p + n⟩) := by
  intro n
  induction n with
  | zero =>
    intro s part shift buf p _
    simp [BitReader.read_part_go, Nat.mod_one]
  | succ m ih =>
    intro s part shift buf p hbits
    have hb0 : bitAt buf p = s.testBit 0 := by
      have h := hbits 0 (by omega)
      simpa using h
    have hrd : BitReader.read_part_go (m + 1) part shift ⟨buf, p⟩
        = BitReader.read_part_go m (part ||| (if s.testBit 0 then 1 else 0) <<< shift)
            (shift + 1) ⟨buf, p + 1⟩ := by
      conv_lhs => rw [BitReader.read_part_go]
      show BitReader.read_part_go m (part ||| (if bitAt buf p then 1 else 0) <<< shift)
          (shift + 1) ⟨buf, p + 1⟩ = _
      rw [hb0]
    have hnext : ∀ j, j < m → bitAt buf (p + 1 + j) = (s / 2).testBit j := by
      intro j hj
      have h := hbits (j + 1) (by omega)
      have e : p + (j + 1) = p + 1 + j := by omega
      rw [e] at h
      rw [Nat.testBit_div_two]
      exact h
    have hrec := ih (s / 2) (part ||| (if s.testBit 0 then 1 else 0) <<< shift)
      (shift + 1) buf (p + 1) hnext
    rw [hrd, hrec]
    have hval : part ||| (if s.testBit 0 then 1 else 0) <<< shift
          ||| (s / 2 % 2 ^ m) <<< (shift + 1)
        = part ||| (s % 2 ^ (m + 1)) <<< shift := by
      rw [Nat.lor_assoc, bit_cons_shift]
    rw [hval]
    have e : p + 1 + m = p + (m + 1) := by omega
    rw [e]

theorem and_127_eq_mod (u : Nat) : u &&& 127 = u % 128 := by
  have h7 : (127 : Nat) = 2 ^ 7 - 1 := by norm_num
  have h8 : (128 : Nat) = 2 ^ 7 := by norm_num
  rw [h7, h8, Nat.and_pow_two_sub_one_eq_mod]

theorem group_or_decomp (u i7 : Nat) :
    ((u &&& 127) <<< i7) ||| ((u >>> 7) <<< (i7 + 7)) = u <<< i7 := by
  rw [and_127_eq_mod]
  apply Nat.eq_of_testBit_eq
  intro i
  simp only [Nat.testBit_or, Nat.testBit_shiftLeft, Nat.testBit_shiftRight]
  have h8 : (128 : Nat) = 2 ^ 7 := by norm_num
  rw [h8]
  simp only [Nat.testBit_mod_two_pow]
  by_cases h1 : i < i7
  · have d1 : decide (i ≥ i7) = false := by simp only [decide_eq_false_iff_not]; omega
    have d2 : decide (i ≥ i7 + 7) = false := by simp only [decide_eq_false_iff_not]; omega
    rw [d1, d2]
    simp
  · have d1 : decide (i ≥ i7) = true := by simp only [decide_eq_true_eq]; omega
    rw [d1]
    by_cases h2 : i - i7 < 7
    · have d2 : decide (i ≥ i7 + 7) = false := by simp only [decide_eq_false_iff_not]; omega
      have d3 : decide (i - i7 < 7) = true := by simp only [decide_eq_true_eq]; omega
      rw [d2, d3]
      simp
    · have d2 : decide (i ≥ i7 + 7) = true := by simp only [decide_eq_true_eq]; omega
      have d3 : decide (i - i7 < 7) = false := by simp only [decide_eq_false_iff_not]; omega
      rw [d2, d3]
      have e : 7 + (i - (i7 + 7)) = i - i7 := by omega
      rw [e]
      simp

theorem read_int_packed_go_decodes :
    ∀ (n i u acc : Nat) (buf : List Nat) (p : Nat),
      n + i = 5 → i ≤ 4 → u < 2 ^ (32 - 7 * i) →
      StreamAt buf p (int_packed_bits_go n u) →
      BitReader.read_int_packed_go n acc i ⟨buf, p⟩
        = (acc ||| u <<< (7 * i), ⟨buf, p + (int_packed_bits_go n u).length⟩) := by
  intro n
  induction n with
  | zero =>
    intro i u acc buf p hni hi _ _
    omega
  | succ m ih =>
    intro i u acc buf p hni hi hu hs
    have hsplit : int_packed_bits_go (m + 1) u
        = ((u >>> 7 != 0) :: low_bits 7 (u &&& 127))
            ++ (if u >>> 7 = 0 then [] else int_packed_bits_go m (u >>> 7)) := rfl
    rw [hsplit] at hs
    rw [List.cons_append, streamAt_cons] at hs
    obtain ⟨hs1, hs2⟩ := hs
    rw [streamAt_append] at hs2
    obtain ⟨hs2a, hs2b⟩ := hs2
    rw [low_bits_length] at hs2b
    have hbits7 : ∀ j, j < 7 → bitAt buf (p + 1 + j) = (u &&& 127).testBit j := by
      intro j hj
      have h := hs2a j (by rw [low_bits_length]; omega)
      rw [low_bits_getD 7 (u &&& 127) j hj] at h
      exact h
    have hpart := read_part_go_decodes 7 (u &&& 127) 0 0 buf (p + 1) hbits7
    have hand_lt : u &&& 127 < 2 ^ 7 := by
      rw [and_127_eq_mod]
      have h := Nat.mod_lt u (by norm_num : 0 < 128)
      norm_num
      omega
    have hmod7 : (u &&& 127) % 2 ^ 7 = u &&& 127 := Nat.mod_eq_of_lt hand_lt
    have hpart2 : BitReader.read_part_go 7 0 0 ⟨buf, p + 1⟩ = (u &&& 127, ⟨buf, p + 8⟩) := by
      rw [hpart, hmod7, Nat.shiftLeft_zero]
      have e : p + 1 + 7 = p + 8 := by omega
      rw [e]
      simp
    have hshift_lt : (u &&& 127) <<< (7 * i) < 2 ^ 32 := by
      rw [Nat.shiftLeft_eq]
      by_cases hi3 : i ≤ 3
      · calc (u &&& 127) * 2 ^ (7 * i) < 2 ^ 7 * 2 ^ (7 * i) :=
              (Nat.mul_lt_mul_right (Nat.two_pow_pos (7 * i))).mpr hand_lt
          _ = 2 ^ (7 + 7 * i) := by rw [← pow_add]
          _ ≤ 2 ^ 32 := Nat.pow_le_pow_right (by norm_num) (by omega)
      · have hi4 : i = 4 := by omega
        subst hi4
        have hu4 : u < 2 ^ 4 := by
          have e : 32 - 7 * 4 = 4 := by norm_num
          rw [e] at hu
          exact hu
        have hand4 : u &&& 127 < 2 ^ 4 := lt_of_le_of_lt (Nat.and_le_left) hu4
        calc (u &&& 127) * 2 ^ (7 * 4) < 2 ^ 4 * 2 ^ (7 * 4) :=
              (Nat.mul_lt_mul_right (Nat.two_pow_pos (7 * 4))).mpr hand4
          _ = 2 ^ (4 + 7 * 4) := by rw [← pow_add]
          _ = 2 ^ 32 := by norm_num
    have hmodid : ((u &&& 127) <<< (7 * i)) % 4294967296 = (u &&& 127) <<< (7 * i) := by
      rw [pow32]
      exact Nat.mod_eq_of_lt hshift_lt
    have hrd : BitReader.read_int_packed_go (m + 1) acc i ⟨buf, p⟩
        = if (u >>> 7 != 0) then
            BitReader.read_int_packed_go m (acc ||| (u &&& 127) <<< (7 * i)) (i + 1)
              ⟨buf, p + 8⟩
          else (acc ||| (u &&& 127) <<< (7 * i), ⟨buf, p + 8⟩) := by
      conv_lhs => rw [BitReader.read_int_packed_go]
      show (if bitAt buf p then
              BitReader.read_int_packed_go m
                (acc ||| ((BitReader.read_part_go 7 0 0 ⟨buf, p + 1⟩).1 <<< (7 * i))
                  % 4294967296) (i + 1) (BitReader.read_part_go 7 0 0 ⟨buf, p + 1⟩).2
            else (acc ||| ((BitReader.read_part_go 7 0 0 ⟨buf, p + 1⟩).1 <<< (7 * i))
                  % 4294967296, (BitReader.read_part_go 7 0 0 ⟨buf, p + 1⟩).2)) = _
      rw [hs1, hpart2, hmodid]
    by_cases hz : u >>> 7 = 0
    · have hhead : (u >>> 7 != 0) = false := by simp [hz]
      have hu128 : u < 128 := by
        rw [Nat.shiftRight_eq_div_pow] at hz
        norm_num at hz
        omega
      have handu : u &&& 127 = u := by
        rw [and_127_eq_mod]
        exact Nat.mod_eq_of_lt hu128
      have hlen : (int_packed_bits_go (m + 1) u).length = 8 := by
        rw [hsplit]
        simp [hz, low_bits_length]
      rw [hrd, hhead, hlen, handu]
      simp
    · have hhead : (u >>> 7 != 0) = true := by simp [hz]
      have hi3 : i ≤ 3 := by
        by_contra hgt
        have hi4 : i = 4 := by omega
        subst hi4
        have hu4 : u < 2 ^ 4 := by
          have e : 32 - 7 * 4 = 4 := by norm_num
          rw [e] at hu
          exact hu
        have hz2 : u >>> 7 = 0 := by
          rw [Nat.shiftRight_eq_div_pow]
          norm_num
          omega
        exact hz hz2
      have hu2 : u >>> 7 < 2 ^ (32 - 7 * (i + 1)) := by
        rw [Nat.shiftRight_eq_div_pow]
        have h128 : (2 : Nat) ^ 7 = 128 := by norm_num
        rw [h128]
        rw [Nat.div_lt_iff_lt_mul (by norm_num : (0 : Nat) < 128)]
        have e : 2 ^ (32 - 7 * (i + 1)) * 128 = 2 ^ (32 - 7 * i) := by
          rw [← h128, ← pow_add]
          congr 1
          omega
        rw [e]
        exact hu
      have hs2c : StreamAt buf (p + 8) (int_packed_bits_go m (u >>> 7)) := by
        have e : p + 1 + 7 = p + 8 := by omega
        rw [if_neg hz, e] at hs2b
        exact hs2b
      have hrec := ih (i + 1) (u >>> 7) (acc ||| (u &&& 127) <<< (7 * i)) buf (p + 8)
        (by omega) (by omega) hu2 hs2c
      rw [hrd, hhead, if_pos rfl, hrec]
      have hval : acc ||| (u &&& 127) <<< (7 * i) ||| (u >>> 7) <<< (7 * (i + 1))
          = acc ||| u <<< (7 * i) := by
        rw [Nat.lor_assoc]
        have e : 7 * (i + 1) = 7 * i + 7 := by omega
        rw [e, group_or_decomp]
      rw [hval]
      have hlen : (int_packed_bits_go (m + 1) u).length
          = 8 + (int_packed_bits_go m (u >>> 7)).length := by
        rw [hsplit]
        simp [hz, low_bits_length]
        omega
      rw [hlen]
      have e : p + 8 + (int_packed_bits_go m (u >>> 7)).length
          = p + (8 + (int_packed_bits_go m (u >>> 7)).length) := by omega
      rw [e]

theorem read_int_packed_decodes (u : Nat) (buf : List Nat) (p : Nat) (hu : u < 2 ^ 32)
    (hs : StreamAt buf p (int_packed_bits u)) :
    BitReader.read_int_packed ⟨buf, p⟩ = (u, ⟨buf, p + (int_packed_bits u).length⟩) := by
  have key := read_int_packed_go_decodes 5 0 u 0 buf p (by omega) (by omega)
    (by simpa using hu) hs
  unfold BitReader.read_int_packed int_packed_bits
  rw [key]
  simp

theorem read_int_decodes (v mx : Nat) (buf : List Nat) (p : Nat) (hv : v < mx)
    (hmx : mx ≤ 2 ^ 32) (hs : StreamAt buf p (int_bits v mx)) :
    BitReader.read_int ⟨buf, p⟩ mx = (v, ⟨buf, p + (int_bits v mx).length⟩) := by
  have he : (2 : Nat) ^ 0 % 4294967296 = 1 := by norm_num
  have hz : (0 : Nat) = v % 2 ^ 0 := (Nat.mod_one v).symm
  unfold BitReader.read_int
  unfold int_bits at hs ⊢
  have hs2 : StreamAt buf p (int_bits_loop 33 0 (2 ^ 0 % 4294967296) v mx) := by
    rw [he]
    exact hs
  have key := read_int_loop_decodes v mx hv hmx 33 0 0 buf p (by omega) (by omega) hz hs2
  rw [he] at key
  exact key

theorem ivp_map_lt (x : Int) : ivp_map x < 2 ^ 32 := by
  unfold ivp_map
  apply Nat.or_lt_two_pow
  · rw [pow32.symm]
    exact Nat.mod_lt _ (by norm_num)
  · by_cases hx : 0 < x
    · rw [if_pos hx]
      norm_num
    · rw [if_neg hx]
      exact Nat.two_pow_pos 32

theorem ivp_map_shift (x : Int) (h : x.natAbs < 2 ^ 31) :
    ivp_map x = (x.natAbs <<< 1) ||| (if 0 < x then 1 else 0) := by
  unfold ivp_map
  congr 1
  rw [pow32]
  apply Nat.mod_eq_of_lt
  rw [Nat.shiftLeft_eq]
  calc x.natAbs * 2 ^ 1 < 2 ^ 31 * 2 ^ 1 :=
        (Nat.mul_lt_mul_right (by norm_num)).mpr h
    _ = 2 ^ 32 := by norm_num

theorem testBit_le_one_high (b i : Nat) (hb : b ≤ 1) : b.testBit (i + 1) = false := by
  rcases (show b = 0 ∨ b = 1 by omega) with h | h <;> rw [h]
  · simp
  · simp [Nat.testBit_add_one]

theorem rivp_decode_arith (x : Int) (h : x.natAbs < 2 ^ 31) :
    (((ivp_map x >>> 1 : Nat) : Int) * (if ivp_map x &&& 1 ≠ 0 then 1 else -1)) = x := by
  rw [ivp_map_shift x h]
  have hb1 : (if 0 < x then 1 else 0 : Nat) ≤ 1 := by
    by_cases hx : 0 < x <;> simp [hx]
  have hshr : ((x.natAbs <<< 1) ||| (if 0 < x then 1 else 0)) >>> 1 = x.natAbs := by
    apply Nat.eq_of_testBit_eq
    intro i
    simp only [Nat.testBit_shiftRight, Nat.testBit_or, Nat.testBit_shiftLeft]
    have d1 : decide (1 + i ≥ 1) = true := by simp only [decide_eq_true_eq]; omega
    have e1 : 1 + i - 1 = i := by omega
    have e2 : 1 + i = i + 1 := by omega
    rw [d1, e1, e2, testBit_le_one_high _ i hb1]
    simp
  have hand : ((x.natAbs <<< 1) ||| (if 0 < x then 1 else 0)) &&& 1
      = (if 0 < x then 1 else 0) := by
    rw [Nat.and_one_is_mod]
    have heven : (x.natAbs <<< 1) % 2 = 0 := by
      rw [Nat.shiftLeft_eq]
      simp [Nat.mul_mod_left]
    by_cases hx : 0 < x
    · rw [if_pos hx]
      rw [Nat.or_mod_two_eq_one.mpr (Or.inr (by norm_num))]
    · rw [if_neg hx]
      simp only [Nat.or_zero]
      exact heven
  rw [hshr, hand]
  by_cases hx : 0 < x
  · rw [if_pos hx, if_pos (by norm_num : (1 : Nat) ≠ 0), mul_one]
    exact Int.natAbs_of_nonneg (le_of_lt hx)
  · rw [if_neg hx, if_neg (by norm_num : ¬((0 : Nat) ≠ 0))]
    have hnp : x ≤ 0 := by omega
    rw [Int.ofNat_natAbs_of_nonpos hnp]
    ring

theorem rivp_item_decodes (x : Int) (buf : List Nat) (p : Nat) (h : x.natAbs < 2 ^ 31)
    (hs : StreamAt buf p (int_packed_bits (ivp_map x))) :
    BitReader.rivp_item ⟨buf, p⟩ = (x, ⟨buf, p + (int_packed_bits (ivp_map x)).length⟩) := by
  have hr := read_int_packed_decodes (ivp_map x) buf p (ivp_map_lt x) hs
  unfold BitReader.rivp_item
  rw [hr]
  show ((((ivp_map x) >>> 1 : Nat) : Int) * (if ivp_map x &&& 1 ≠ 0 then 1 else -1),
      (⟨buf, p + (int_packed_bits (ivp_map x)).length⟩ : BitReader)) = _
  rw [rivp_decode_arith x h]

theorem stream_wpiv (w : BitWriter) (v : Nat × Nat × Nat) (hw : w.WF) :
    (w.write_positive_int_vector_packed v).stream
        = w.stream ++ (int_packed_bits v.1 ++ (int_packed_bits v.2.1
          ++ int_packed_bits v.2.2)) ∧
    (w.write_positive_int_vector_packed v).WF := by
  obtain ⟨h1, hw1⟩ := stream_write_int_packed w v.1 hw
  obtain ⟨h2, hw2⟩ := stream_write_int_packed (w.write_int_packed v.1) v.2.1 hw1
  obtain ⟨h3, hw3⟩ :=
    stream_write_int_packed ((w.write_int_packed v.1).write_int_packed v.2.1) v.2.2 hw2
  unfold BitWriter.write_positive_int_vector_packed
  refine ⟨?_, hw3⟩
  rw [h3, h2, h1]
  simp [List.append_assoc]

theorem stream_wiv (w : BitWriter) (v : Int × Int × Int) (hw : w.WF) :
    (w.write_int_vector_packed v).stream
        = w.stream ++ (int_packed_bits (ivp_map v.1) ++ (int_packed_bits (ivp_map v.2.1)
          ++ int_packed_bits (ivp_map v.2.2))) ∧
    (w.write_int_vector_packed v).WF := by
  obtain ⟨h1, hw1⟩ := stream_write_int_packed w (ivp_map v.1) hw
  obtain ⟨h2, hw2⟩ :=
    stream_write_int_packed (w.write_int_packed (ivp_map v.1)) (ivp_map v.2.1) hw1
  obtain ⟨h3, hw3⟩ := stream_write_int_packed
    ((w.write_int_packed (ivp_map v.1)).write_int_packed (ivp_map v.2.1)) (ivp_map v.2.2) hw2
  unfold BitWriter.write_int_vector_packed
  refine ⟨?_, hw3⟩
  rw [h3, h2, h1]
  simp [List.append_assoc]

theorem read_pos_vec_decodes (a b c : Nat) (buf : List Nat) (p : Nat)
    (ha : a < 2 ^ 32) (hb : b < 2 ^ 32) (hc : c < 2 ^ 32)
    (hs : StreamAt buf p (int_packed_bits a ++ (int_packed_bits b ++ int_packed_bits c))) :
    (BitReader.read_positive_int_vector_packed ⟨buf, p⟩).1 = (a, b, c) := by
  rw [streamAt_append] at hs
  obtain ⟨hsa, hsbc⟩ := hs
  rw [streamAt_append] at hsbc
  obtain ⟨hsb, hsc⟩ := hsbc
  have e : p + (int_packed_bits a).length + (int_packed_bits b).length
      = p + (int_packed_bits a).length + (int_packed_bits b).length := rfl
  unfold BitReader.read_positive_int_vector_packed
  rw [read_int_packed_decodes a buf p ha hsa]
  dsimp only
  rw [read_int_packed_decodes b buf (p + (int_packed_bits a).length) hb hsb]
  dsimp only
  rw [read_int_packed_decodes c buf (p + (int_packed_bits a).length
    + (int_packed_bits b).length) hc hsc]

theorem read_int_vec_decodes (x y z : Int) (buf : List Nat) (p : Nat)
    (hx : x.natAbs < 2 ^ 31) (hy : y.natAbs < 2 ^ 31) (hz : z.natAbs < 2 ^ 31)
    (hs : StreamAt buf p (int_packed_bits (ivp_map x) ++ (int_packed_bits (ivp_map y)
      ++ int_packed_bits (ivp_map z)))) :
    (BitReader.read_int_vector_packed ⟨buf, p⟩).1 = (x, y, z) := by
  rw [streamAt_append] at hs
  obtain ⟨hsa, hsbc⟩ := hs
  rw [streamAt_append] at hsbc
  obtain ⟨hsb, hsc⟩ := hsbc
  unfold BitReader.read_int_vector_packed
  rw [rivp_item_decodes x buf p hx hsa]
  dsimp only
  rw [rivp_item_decodes y buf (p + (int_packed_bits (ivp_map x)).length) hy hsb]
  dsimp only
  rw [rivp_item_decodes z buf (p + (int_packed_bits (ivp_map x)).length
    + (int_packed_bits (ivp_map y)).length) hz hsc]

theorem new_wf : BitWriter.new.WF := by
  constructor
  · norm_num [BitWriter.new]
  · norm_num [BitWriter.new]

theorem new_stream : BitWriter.new.stream = [] := by
  simp [BitWriter.stream, BitWriter.new, bytes_bits, low_bits]

theorem except_bind_ok {ε α β : Type} {e : Except ε α} {f : α → Except ε β} {b : β}
    (h : e >>= f = .ok b) : ∃ a, e = .ok a ∧ f a = .ok b := by
  cases e with
  | error err =>
    have hred : ((Except.error err : Except ε α) >>= f) = Except.error err := rfl
    rw [hred] at h
    cases h
  | ok a =>
    refine ⟨a, rfl, ?_⟩
    have hred : ((Except.ok a : Except ε α) >>= f) = f a := rfl
    rwa [hred] at h

/-- C4.  Bit-primitive round-trip laws: for all max values m in [2, 2^32]
and 0 ≤ v < m, write_int v m followed by read_int m on the produced bytes
returns v; write_int_packed/read_int_packed round-trips every u32;
write_positive_int_vector_packed/read_positive_int_vector_packed
round-trips every u32 triple; and write_int_vector_packed /
read_int_vector_packed round-trips every i32 triple whose components
exceed i32::MIN (equivalently, |component| < 2^31), via the encoding
(|v| << 1) | (v > 0 ? 1 : 0) per component (the ivp_map of the source). -/
theorem c4_bit_primitive_round_trips :
    (∀ m v : Nat, 2 ≤ m → m ≤ 2 ^ 32 → v < m →
      ((BitReader.mk ((BitWriter.new.write_int v m).2.finish) 0).read_int m).1 = v) ∧
    (∀ v : Nat, v < 2 ^ 32 →
      ((BitReader.mk ((BitWriter.new.write_int_packed v).finish) 0).read_int_packed).1
        = v) ∧
    (∀ a b c : Nat, a < 2 ^ 32 → b < 2 ^ 32 → c < 2 ^ 32 →
      ((BitReader.mk ((BitWriter.new.write_positive_int_vector_packed (a, b, c)).finish)
        0).read_positive_int_vector_packed).1 = (a, b, c)) ∧
    (∀ x y z : Int, x.natAbs < 2 ^ 31 → y.natAbs < 2 ^ 31 → z.natAbs < 2 ^ 31 →
      ((BitReader.mk ((BitWriter.new.write_int_vector_packed (x, y, z)).finish)
        0).read_int_vector_packed).1 = (x, y, z)) := by
  refine ⟨?_, ?_, ?_, ?_⟩
  · intro m v h2 h32 hv
    obtain ⟨_, hs, hwf⟩ := write_int_ok BitWriter.new v m new_wf h2 hv
    rw [new_stream] at hs
    simp only [List.nil_append] at hs
    have hSA := streamAt_finish (BitWriter.new.write_int v m).2 hwf
    rw [hs] at hSA
    have hr := read_int_decodes v m ((BitWriter.new.write_int v m).2.finish) 0 hv h32 hSA
    rw [hr]
  · intro v hv
    obtain ⟨hs, hwf⟩ := stream_write_int_packed BitWriter.new v new_wf
    rw [new_stream] at hs
    simp only [List.nil_append] at hs
    have hSA := streamAt_finish (BitWriter.new.write_int_packed v) hwf
    rw [hs] at hSA
    have hr := read_int_packed_decodes v ((BitWriter.new.write_int_packed v).finish) 0 hv hSA
    rw [hr]
  · intro a b c ha hb hc
    obtain ⟨hs, hwf⟩ := stream_wpiv BitWriter.new (a, b, c) new_wf
    rw [new_stream] at hs
    simp only [List.nil_append] at hs
    have hSA := streamAt_finish (BitWriter.new.write_positive_int_vector_packed (a, b, c)) hwf
    rw [hs] at hSA
    exact read_pos_vec_decodes a b c _ 0 ha hb hc hSA
  · intro x y z hx hy hz
    obtain ⟨hs, hwf⟩ := stream_wiv BitWriter.new (x, y, z) new_wf
    rw [new_stream] at hs
    simp only [List.nil_append] at hs
    have hSA := streamAt_finish (BitWriter.new.write_int_vector_packed (x, y, z)) hwf
    rw [hs] at hSA
    exact read_int_vec_decodes x y z _ 0 hx hy hz hSA

/-- Witness for C4 at concrete inputs: m = 3 with v = 2, the varint 398475,
the positive triple (300, 70000, 5), and the signed triple (1, -1, 0). -/
theorem c4_bit_primitive_round_trips_witness :
    ((2 ≤ 3 ∧ (3 : Nat) ≤ 2 ^ 32 ∧ 2 < 3) ∧
      ((BitReader.mk ((BitWriter.new.write_int 2 3).2.finish) 0).read_int 3).1 = 2) ∧
    ((398475 : Nat) < 2 ^ 32 ∧
      ((BitReader.mk ((BitWriter.new.write_int_packed 398475).finish)
        0).read_int_packed).1 = 398475) ∧
    ((BitReader.mk ((BitWriter.new.write_positive_int_vector_packed
        (300, 70000, 5)).finish) 0).read_positive_int_vector_packed).1 = (300, 70000, 5) ∧
    ((BitReader.mk ((BitWriter.new.write_int_vector_packed (1, -1, 0)).finish)
        0).read_int_vector_packed).1 = (1, -1, 0) :=
  ⟨⟨⟨by norm_num, by norm_num, by norm_num⟩,
      c4_bit_primitive_round_trips.1 3 2 (by norm_num) (by norm_num) (by norm_num)⟩,
    ⟨by norm_num, c4_bit_primitive_round_trips.2.1 398475 (by norm_num)⟩,
    c4_bit_primitive_round_trips.2.2.1 300 70000 5 (by norm_num) (by norm_num) (by norm_num),
    c4_bit_primitive_round_trips.2.2.2 1 (-1) 0 (by norm_num) (by norm_num) (by norm_num)⟩

/-- C2 counterexample: write_save's version word is LATEST_VERSION = 4,
which is not MAX_VERSION_READ (RenamedComponentDescriptors = 8), so the
first five emitted bytes differ from MAGIC followed by MAX_VERSION_READ. -/
theorem c2_version_word_counterexample :
    write_save_magic_version = [66, 82, 83, 4, 0] ∧
    Version.toU16 MAX_VERSION_READ = 8 ∧
    write_save_magic_version ≠ MAGIC ++ u16_le_bytes (Version.toU16 MAX_VERSION_READ) := by
  refine ⟨rfl, rfl, ?_⟩
  decide

theorem stream_ite_wpiv (w : BitWriter) (b : Bool) (s : Nat × Nat × Nat) (hw : w.WF) :
    (if b then w.write_positive_int_vector_packed s else w).stream
        = w.stream ++ (if b then int_packed_bits s.1 ++ (int_packed_bits s.2.1
          ++ int_packed_bits s.2.2) else []) ∧
    (if b then w.write_positive_int_vector_packed s else w).WF := by
  cases b
  · simpa using hw
  · simpa using stream_wpiv w s hw

theorem stream_ite_wip (w : BitWriter) (b : Bool) (v : Nat) (hw : w.WF) :
    (if b then w.write_int_packed v else w).stream
        = w.stream ++ (if b then int_packed_bits v else []) ∧
    (if b then w.write_int_packed v else w).WF := by
  cases b
  · simpa using hw
  · simpa using stream_write_int_packed w v hw

theorem stream_write_u32 (w : BitWriter) (n : Nat) (hw : w.WF) :
    (w.write_u32_le n).stream = w.stream ++ u32_le_bits n ∧ (w.write_u32_le n).WF := by
  have h := stream_write_bits_naive w 32 (u32_le_bytes n) hw
  exact h

/-- C2 as amended.  write_save emits the version word LATEST_VERSION = 4
(Version::AddedDateTime), strictly below MAX_VERSION_READ; and each brick
is encoded by the pre-AddedGameVersion branch described by brick_bits: a
one-bit material flag (set iff material_index differs from the default 1)
followed by a varint only when set — not a bounded int over the material
table — and the owner as a varint. -/
theorem c2_amended_write_encoding :
    write_save_magic_version = MAGIC ++ u16_le_bytes (Version.toU16 .addedDateTime) ∧
    LATEST_VERSION < Version.toU16 MAX_VERSION_READ ∧
    ∀ (brick_assets_len colors_len : Nat) (brick : Brick) (w w2 : BitWriter), w.WF →
      write_brick brick_assets_len colors_len brick w = .ok w2 →
      w2.stream = w.stream ++ (List.replicate ((8 - w.bit) % 8) false
        ++ brick_bits brick_assets_len colors_len brick) := by
  refine ⟨rfl, by norm_num [LATEST_VERSION, MAX_VERSION_READ, Version.toU16], ?_⟩
  intro aLen cLen brick w w2 hw hok
  unfold write_brick at hok
  obtain ⟨w1, h1, hok⟩ := except_bind_ok hok
  obtain ⟨w5, h2, hok⟩ := except_bind_ok hok
  obtain ⟨hsA, hwA, _⟩ := stream_byte_align w hw
  obtain ⟨hs1, hw1⟩ := wi_ok hwA h1
  obtain ⟨hs2, hw2b⟩ := stream_write_bit w1 (decide (brick.size ≠ (0, 0, 0))) hw1
  obtain ⟨hs3, hw3⟩ := stream_ite_wpiv (w1.write_bit (decide (brick.size ≠ (0, 0, 0))))
    (decide (brick.size ≠ (0, 0, 0))) brick.size hw2b
  obtain ⟨hs4, hw4⟩ := stream_wiv _ brick.position hw3
  obtain ⟨hs5, hw5⟩ := wi_ok hw4 h2
  obtain ⟨hs6, hw6⟩ := stream_write_bit w5 brick.collision hw5
  obtain ⟨hs7, hw7⟩ := stream_write_bit _ brick.visibility hw6
  obtain ⟨hs8, hw8⟩ := stream_write_bit _ (decide (brick.material_index ≠ 1)) hw7
  obtain ⟨hs9, hw9⟩ := stream_ite_wip _ (decide (brick.material_index ≠ 1))
    brick.material_index hw8
  cases hcol : brick.color with
  | set ci =>
    rw [hcol] at hok
    obtain ⟨w10, h3, hok⟩ := except_bind_ok hok
    have hok2 : Except.ok (w10.write_int_packed
        (match brick.owner_index with | none => 0 | some i => i + 1)) = Except.ok w2 := hok
    have hw2eq := Except.ok.inj hok2
    obtain ⟨hs10a, hw10a⟩ := stream_write_bit _ false hw9
    obtain ⟨hs10, hw10⟩ := wi_ok hw10a h3
    obtain ⟨hsF, _⟩ := stream_write_int_packed w10
      (match brick.owner_index with | none => 0 | some i => i + 1) hw10
    rw [← hw2eq, hsF, hs10, hs10a, hs9, hs8, hs7, hs6, hs5, hs4, hs3, hs2, hs1, hsA]
    unfold brick_bits
    rw [hcol]
    simp [List.append_assoc]
  | custom cc =>
    rw [hcol] at hok
    obtain ⟨w10, h3, hok⟩ := except_bind_ok hok
    have h3b := Except.ok.inj h3
    have hok2 : Except.ok (w10.write_int_packed
        (match brick.owner_index with | none => 0 | some i => i + 1)) = Except.ok w2 := hok
    have hw2eq := Except.ok.inj hok2
    obtain ⟨hs10a, hw10a⟩ := stream_write_bit _ true hw9
    obtain ⟨hs10, hw10⟩ := stream_write_u32 _ cc hw10a
    rw [h3b] at hw10 hs10
    obtain ⟨hsF, _⟩ := stream_write_int_packed w10
      (match brick.owner_index with | none => 0 | some i => i + 1) hw10
    rw [← hw2eq, hsF, hs10, hs10a, hs9, hs8, hs7, hs6, hs5, hs4, hs3, hs2, hs1, hsA]
    unfold brick_bits
    rw [hcol]
    simp [List.append_assoc]

/-- Witness for the C2 amended theorem: write_brick for c2_brick (table
sizes 2 and 3) starting from a fresh writer succeeds, and the resulting
stream is exactly brick_bits (no alignment padding from the fresh
writer). -/
theorem c2_amended_write_encoding_witness :
    (BitWriter.WF BitWriter.new ∧
      write_brick 2 3 c2_brick BitWriter.new
        = .ok (BitWriter.mk [11, 16, 24, 72, 80, 0, 68, 59, 144] 0 5)) ∧
    (BitWriter.mk [11, 16, 24, 72, 80, 0, 68, 59, 144] 0 5).stream
      = BitWriter.new.stream ++ (List.replicate ((8 - BitWriter.new.bit) % 8) false
        ++ brick_bits 2 3 c2_brick) := by
  have h1 : BitWriter.WF BitWriter.new := by
    constructor <;> norm_num [BitWriter.new]
  have h2 : write_brick 2 3 c2_brick BitWriter.new
      = .ok (BitWriter.mk [11, 16, 24, 72, 80, 0, 68, 59, 144] 0 5) := by decide
  exact ⟨⟨h1, h2⟩,
    c2_amended_write_encoding.2.2 2 3 c2_brick BitWriter.new _ h1 h2⟩

theorem read_bits_go_pos : ∀ (n bit : Nat) (dst : List Nat) (r : BitReader),
    ((BitReader.read_bits_go n bit dst r).2).pos = r.pos + n := by
  intro n
  induction n with
  | zero =>
    intro bit dst r
    simp [BitReader.read_bits_go]
  | succ k ih =>
    intro bit dst r
    have e : BitReader.read_bits_go (k + 1) bit dst r
        = BitReader.read_bits_go k (bit + 1)
            (dst.set (bit >>> 3) ((dst.getD (bit >>> 3) 0 &&& (255 ^^^ (1 <<< (bit &&& 7))))
              ||| ((if (r.read_bit).1 then 1 else 0) <<< (bit &&& 7)))) (r.read_bit).2 := rfl
    rw [e, ih]
    have e2 : (r.read_bit).2.pos = r.pos + 1 := rfl
    rw [e2]
    omega

/-- C1 code evaluation (claim C1 is a code bug).  For the one-brick save
data c1_brick (Custom color, owner index 5) against one-entry asset and
color tables, the write side succeeds, but reading the produced brick
section back at the written version yields a brick that differs from the
input (the owner comes back as none), and the reader's final bit position
overruns the end of the buffer — in the Rust source this read panics with
an out-of-bounds index, caused by read_bits advancing the cursor twice. -/
theorem c1_custom_color_brick_read_overruns :
    (write_brick 1 1 c1_brick BitWriter.new).isOk = true ∧
    (read_brick .addedDateTime 1 1 1 (BitReader.mk c1_bytes 0)).1 ≠ c1_brick ∧
    (read_brick .addedDateTime 1 1 1 (BitReader.mk c1_bytes 0)).1.owner_index = none ∧
    c1_brick.owner_index = some 5 ∧
    8 * c1_bytes.length < (read_brick .addedDateTime 1 1 1 (BitReader.mk c1_bytes 0)).2.pos := by
  decide

/-- C3 code evaluation (claim C3 is a code bug).  read_bits copies the
requested bits correctly, but afterwards the cursor sits at p + 2*len, not
p + len: the copy loop advances pos once per bit through read_bit, and
line 31 of bit_reader.rs then adds len again.  On the concrete input
(buf = [0xFF], p = 0, n = 4) the copied nibble is right while the final
position is 8 instead of 4. -/
theorem c3_read_bits_double_advance :
    (∀ (r : BitReader) (dst : List Nat) (len : Nat),
      ((r.read_bits dst len).2).pos = r.pos + len + len) ∧
    (BitReader.mk [255] 0).read_bits [0] 4 = ([15], BitReader.mk [255] 8) ∧
    ((BitReader.mk [255] 0).read_bits [0] 4).2.pos ≠ 0 + 4 := by
  refine ⟨?_, by decide, by decide⟩
  intro r dst len
  show (BitReader.read_bits_go len 0 dst r).2.pos + len = r.pos + len + len
  rw [read_bits_go_pos]

/-- C5 code evaluation (claim C5 is a code bug).  write_string on the
one-character non-ASCII string U+00E9 emits the prefix -6 (computed from
the UTF-8 byte length) while writing only 2 UTF-16 units including the
terminator; reading those bytes back with string() then runs out of input
(the reader trusts the prefix and asks for 6 units = 12 bytes).  Also, a
code point outside the BMP (U+1F600) does not error: is_ucs2 accepts it and
it is silently truncated to 16 bits. -/
theorem c5_write_string_prefix_mismatch :
    write_string [233] = .ok [250, 255, 255, 255, 233, 0, 0, 0] ∧
    i32_of_le_bytes 250 255 255 255 = -6 ∧
    string [250, 255, 255, 255, 233, 0, 0, 0] = .error .eof ∧
    (write_string [128512]).isOk = true := by
  decide

/-- C6 counterexample: the i32 pair (U, C) = (2147483647, 0) satisfies
U > 0 and 0 ≤ C < U, yet read_new.rs compressed_section rejects it with
InvalidCompressedSection (its range check also excludes i32::MAX-1 and
i32::MAX), while read.rs read_compressed accepts it. -/
theorem c6_max_len_rejected_counterexample :
    compressed_section_sizes 2147483647 0 = .error .invalidCompressedSection ∧
    (0 : Int) < 2147483647 ∧ (0 : Int) ≤ 0 ∧
    read_compressed_sizes 2147483647 0 = .ok () := by
  refine ⟨?_, by norm_num, by norm_num, ?_⟩
  · unfold compressed_section_sizes
    rw [if_pos]
    left
    intro hand
    omega
  · unfold read_compressed_sizes
    rw [if_neg]
    intro hor
    rcases hor with h | h | h <;> omega

/-- C6 as amended.  read.rs read_compressed proceeds iff U > 0 and
0 ≤ C < U and otherwise errors; read_new.rs compressed_section
additionally requires U ≤ 2147483645 (it rejects the positive values
2147483646 and 2147483647), failing with InvalidCompressedSection
otherwise. -/
theorem c6_amended_size_validation :
    (∀ u c : Int, read_compressed_sizes u c = .ok () ↔ (0 < u ∧ 0 ≤ c ∧ c < u)) ∧
    (∀ u c : Int, read_compressed_sizes u c
        = .error (.invalidData "Invalid compressed section size")
      ↔ ¬(0 < u ∧ 0 ≤ c ∧ c < u)) ∧
    (∀ u c : Int, compressed_section_sizes u c = .ok ()
      ↔ (1 ≤ u ∧ u ≤ 2147483645 ∧ 0 ≤ c ∧ c < u)) ∧
    (∀ u c : Int, compressed_section_sizes u c = .error .invalidCompressedSection
      ↔ ¬(1 ≤ u ∧ u ≤ 2147483645 ∧ 0 ≤ c ∧ c < u)) := by
  refine ⟨?_, ?_, ?_, ?_⟩ <;> intro u c
  · unfold read_compressed_sizes
    by_cases h : u < 0 ∨ c < 0 ∨ c ≥ u
    · rw [if_pos h]
      constructor
      · intro hh
        cases hh
      · intro hh
        omega
    · rw [if_neg h]
      push_neg at h
      constructor
      · intro _
        omega
      · intro _
        rfl
  · unfold read_compressed_sizes
    by_cases h : u < 0 ∨ c < 0 ∨ c ≥ u
    · rw [if_pos h]
      constructor
      · intro _
        omega
      · intro _
        rfl
    · rw [if_neg h]
      push_neg at h
      constructor
      · intro hh
        cases hh
      · intro hh
        exfalso
        apply hh
        omega
  · unfold compressed_section_sizes
    by_cases h : ¬(1 ≤ u ∧ u < 2147483646) ∨ ¬(0 ≤ c ∧ c < u)
    · rw [if_pos h]
      constructor
      · intro hh
        cases hh
      · intro hh
        omega
    · rw [if_neg h]
      push_neg at h
      constructor
      · intro _
        obtain ⟨h1, h2⟩ := h
        refine ⟨?_, ?_, ?_, ?_⟩ <;> omega
      · intro _
        rfl
  · unfold compressed_section_sizes
    by_cases h : ¬(1 ≤ u ∧ u < 2147483646) ∨ ¬(0 ≤ c ∧ c < u)
    · rw [if_pos h]
      constructor
      · intro _
        omega
      · intro _
        rfl
    · rw [if_neg h]
      push_neg at h
      constructor
      · intro hh
        cases hh
      · intro hh
        exfalso
        apply hh
        obtain ⟨h1, h2⟩ := h
        refine ⟨?_, ?_, ?_, ?_⟩ <;> omega

/-- C7 counterexample: with max = 3, write_int encodes the value 1 as the
single bit 1, not as the two-bit string claimed by the fixture. -/
theorem c7_value_one_single_bit_counterexample :
    ((BitWriter.new.write_int 1 3).2).stream = [true] ∧
    ((BitWriter.new.write_int 1 3).2).stream ≠ [true, false] ∧
    ((BitWriter.new.write_int 1 3).2).stream ≠ [false, true] := by
  decide

/-- C7 as amended.  With max = 3, write_int encodes 0, 1, 2 as the bit
strings 00, 1 (a single bit), 01 respectively — a genuinely
variable-length encoding — while max = 4 uses a fixed 2 bits for every
value; read_int with the same max consumes exactly those bits and returns
the original value (the reader position after decoding equals the number
of encoded bits). -/
theorem c7_amended_bounded_int_encodings :
    ((BitWriter.new.write_int 0 3).2).stream = [false, false] ∧
    ((BitWriter.new.write_int 1 3).2).stream = [true] ∧
    ((BitWriter.new.write_int 2 3).2).stream = [false, true] ∧
    ((BitWriter.new.write_int 0 4).2).stream = [false, false] ∧
    ((BitWriter.new.write_int 1 4).2).stream = [true, false] ∧
    ((BitWriter.new.write_int 2 4).2).stream = [false, true] ∧
    ((BitWriter.new.write_int 3 4).2).stream = [true, true] ∧
    (BitReader.mk ((BitWriter.new.write_int 0 3).2.finish) 0).read_int 3
      = (0, BitReader.mk [0] 2) ∧
    (BitReader.mk ((BitWriter.new.write_int 1 3).2.finish) 0).read_int 3
      = (1, BitReader.mk [1] 1) ∧
    (BitReader.mk ((BitWriter.new.write_int 2 3).2.finish) 0).read_int 3
      = (2, BitReader.mk [2] 2) ∧
    (BitReader.mk ((BitWriter.new.write_int 1 4).2.finish) 0).read_int 4
      = (1, BitReader.mk [1] 2) ∧
    (BitReader.mk ((BitWriter.new.write_int 3 4).2.finish) 0).read_int 4
      = (3, BitReader.mk [3] 2) := by
  decide

/-- C8 counterexample: on a negative brick_count (here -1), read_new.rs's
read_header1 does not succeed with 0 — the i32-to-u32 conversion fails and
the todo! panics (modelled as none). -/
theorem c8_read_new_negative_counterexample :
    read_new_header1_brick_count (-1) = none ∧
    read_new_header1_brick_count (-1) ≠ some 0 := by
  decide

/-- C8 as amended.  read.rs's read_header1 clamps every negative
brick_count to 0 and passes non-negative values through unchanged;
read_new.rs's read_header1 passes non-negative values through but fails
(an unfinished todo! panic) on every negative value. -/
theorem c8_amended_brick_count :
    (∀ n : Int, n < 0 →
      read_header1_brick_count n = 0 ∧ read_new_header1_brick_count n = none) ∧
    (∀ n : Int, 0 ≤ n →
      read_header1_brick_count n = n.toNat
        ∧ read_new_header1_brick_count n = some n.toNat) := by
  constructor
  · intro n hn
    constructor
    · unfold read_header1_brick_count
      rw [if_pos hn]
    · unfold read_new_header1_brick_count
      rw [if_pos hn]
  · intro n hn
    constructor
    · unfold read_header1_brick_count
      rw [if_neg (by omega)]
    · unfold read_new_header1_brick_count
      rw [if_neg (by omega)]

/-- Witness for C8 amended at n = -7 and n = 42. -/
theorem c8_amended_brick_count_witness :
    ((-7 : Int) < 0 ∧ read_header1_brick_count (-7) = 0
      ∧ read_new_header1_brick_count (-7) = none) ∧
    ((0 : Int) ≤ 42 ∧ read_header1_brick_count 42 = (42 : Int).toNat
      ∧ read_new_header1_brick_count 42 = some (42 : Int).toNat) :=
  ⟨⟨by norm_num, (c8_amended_brick_count.1 (-7) (by norm_num)).1,
      (c8_amended_brick_count.1 (-7) (by norm_num)).2⟩,
    ⟨by norm_num, (c8_amended_brick_count.2 42 (by norm_num)).1,
      (c8_amended_brick_count.2 42 (by norm_num)).2⟩⟩

/-- C10.  write_int is atomic on error: with max ≥ 2 (the source asserts
this) and value ≥ max, it returns the InvalidInput error before emitting
any bit, leaving the writer (pending byte, bit position, output) entirely
unchanged; with value < max it succeeds, so bits are emitted only in that
case. -/
theorem c10_write_int_error_atomic :
    (∀ (w : BitWriter) (value max : Nat), 2 ≤ max → max ≤ value →
      w.write_int value max = (Except.error WriteError.invalidInput, w)) ∧
    (∀ (w : BitWriter) (value max : Nat), 2 ≤ max → value < max →
      (w.write_int value max).1 = Except.ok ()) := by
  constructor
  · intro w v m h2 hv
    unfold BitWriter.write_int
    rw [if_neg (by omega), if_pos (by omega)]
  · intro w v m h2 hv
    unfold BitWriter.write_int
    rw [if_neg (by omega), if_neg (by omega)]

/-- Witness for C10 at (value, max) = (5, 3) failing and (1, 3)
succeeding, from a fresh writer. -/
theorem c10_write_int_error_atomic_witness :
    ((2 ≤ 3 ∧ 3 ≤ 5) ∧
      BitWriter.new.write_int 5 3 = (Except.error WriteError.invalidInput, BitWriter.new)) ∧
    ((2 ≤ 3 ∧ 1 < 3) ∧ (BitWriter.new.write_int 1 3).1 = Except.ok ()) :=
  ⟨⟨⟨by norm_num, by norm_num⟩,
      c10_write_int_error_atomic.1 BitWriter.new 5 3 (by norm_num) (by norm_num)⟩,
    ⟨⟨by norm_num, by norm_num⟩,
      c10_write_int_error_atomic.2 BitWriter.new 1 3 (by norm_num) (by norm_num)⟩⟩

/-- C9.  read_new.rs Reader::new rejects every version word strictly below
MaterialsStoredAsNames (2) with VersionTooOld — in particular Initial (1)
files are never readable — so whenever the version check accepts, the
resulting file_version is at least MaterialsStoredAsNames and
read_header2's default-materials branch is unreachable: the materials list
is the one parsed from Header2. -/
theorem c9_min_version_gate :
    (∀ raw : Nat, raw < Version.toU16 MIN_VERSION_READ →
      check_version raw = .error (.versionTooOld raw)) ∧
    check_version (Version.toU16 .initial) = .error (.versionTooOld 1) ∧
    (∀ (raw : Nat) (v : Version), check_version raw = .ok v →
      Version.toU16 .materialsStoredAsNames ≤ v.toU16 ∧
      ∀ parsed : List String, header2_materials v parsed = parsed) := by
  refine ⟨?_, by decide, ?_⟩
  · intro raw h
    unfold check_version
    rw [if_pos h]
  · intro raw v hok
    have h1 : ¬ raw < Version.toU16 MIN_VERSION_READ := by
      intro hlt
      unfold check_version at hok
      rw [if_pos hlt] at hok
      cases hok
    have h2 : ¬ raw > Version.toU16 MAX_VERSION_READ := by
      intro hgt
      unfold check_version at hok
      rw [if_neg h1, if_pos hgt] at hok
      cases hok
    have hge : 2 ≤ raw := by
      have e : Version.toU16 MIN_VERSION_READ = 2 := rfl
      omega
    have hle : raw ≤ 8 := by
      have e : Version.toU16 MAX_VERSION_READ = 8 := rfl
      omega
    unfold check_version at hok
    rw [if_neg h1, if_neg h2] at hok
    have hmain : Version.toU16 .materialsStoredAsNames ≤ v.toU16 := by
      interval_cases raw <;>
        · simp only [Version.fromU16] at hok
          have hv := Except.ok.inj hok
          subst hv
          decide
    refine ⟨hmain, ?_⟩
    intro parsed
    unfold header2_materials
    rw [if_pos hmain]

/-- Witness for C9: the version word 1 (Initial) is rejected as too old,
and the accepted version word 3 (AddedOwnerData) is at least
MaterialsStoredAsNames with the materials list taken from the parsed
Header2 array. -/
theorem c9_min_version_gate_witness :
    ((1 < Version.toU16 MIN_VERSION_READ) ∧
      check_version 1 = .error (.versionTooOld 1)) ∧
    (check_version 3 = .ok Version.addedOwnerData ∧
      Version.toU16 .materialsStoredAsNames ≤ Version.addedOwnerData.toU16 ∧
      header2_materials Version.addedOwnerData ["BMC_Plastic"] = ["BMC_Plastic"]) := by
  have h3 : check_version 3 = .ok Version.addedOwnerData := by decide
  have hk := c9_min_version_gate.2.2 3 Version.addedOwnerData h3
  exact ⟨⟨by decide, c9_min_version_gate.1 1 (by decide)⟩,
    ⟨h3, hk.1, hk.2 ["BMC_Plastic"]⟩⟩

end Brs
